import Mathlib

/-! # peram_gen: the pipeline / buffer-lifecycle scheduler of `main.cpp`

A shallow embedding of `src/main/main.cpp`.

* The calls into the external collaborators (tmLQCD, the distillery object,
  MPI) are recorded as events; a run of the program is the list of events it
  issues together with its outcome: an exit code, or the abort caused by an
  array `new` that throws.  The collaborator calls themselves are taken to
  return.
* The OpenMP parallel region (lines 102-167) is embedded thread by thread.
  The text every thread executes is cut at the two `#pragma omp barrier`
  lines into segments; the segments that all threads execute between two
  consecutive barriers form a phase.  Inside a phase the threads run
  concurrently, so a phase is linearised by an arbitrary schedule; the
  theorems quantify over all schedules.
* The three outer pointer arrays `sources`, `propagators_t0`,
  `propagators_t1` (lines 79-81) are instances identified by a number; the two
  propagator handles are exchanged by the pointer swap of lines 151-153.
* The element buffers created by `new` at lines 92-94 and destroyed by
  `delete[]` at lines 174-176 live in an explicit heap.

Timing calls, printing, `sleep` and the Eigen set-up do not influence control
flow and are left out.
-/

namespace PeramGen

/-! ## Events -/

/-- Identity of one of the outer pointer arrays allocated at lines 79-81. -/
abbrev Inst := Nat

/-- The calls `main` issues.  Calls made inside the parallel region carry the
id of the calling thread and the values of the loop variables at the call. -/
inductive Ev
  /-- Line 32. -/
  | tmLQCD_invert_init
  /-- Lines 33, 61, 64, 75, 189, 197, 200, 205. -/
  | MPI_Barrier
  /-- Line 37. -/
  | parse_input_file
  /-- Lines 53, 67, 187. -/
  | tmLQCD_finalise
  /-- Lines 54, 69, 210. -/
  | MPI_Finalize
  /-- Line 63. -/
  | tmLQCD_read_gauge
  /-- Line 74. -/
  | dis_initialise
  /-- The allocation loop of lines 91-95 for sample `rnd_id`: it fills the three
  buffer sets `sources`, `propagators_t1`, `propagators_t0`. -/
  | allocate (rnd_id : Nat)
  /-- Line 115, `dis.create_source(dil_t, dil_e, sources)`. -/
  | create_source (thread_id dil_t dil_e : Nat)
  /-- Line 140 (or 136), `tmLQCD_invert(propagators_t0[out_idx], sources[src_idx], ..)`
  where the handle `propagators_t0` designates the instance `out`. -/
  | tmLQCD_invert (thread_id dil_t dil_e : Nat) (out : Inst) (out_idx src_idx : Nat)
  /-- Lines 148 and 155, arrival of a thread at `#pragma omp barrier`. -/
  | omp_barrier (thread_id : Nat)
  /-- Lines 151-153, the pointer exchange. -/
  | exchange (thread_id : Nat)
  /-- Line 161, `dis.add_to_perambulator(dil_t, dil_e, propagators_t1)` where the
  handle `propagators_t1` designates the instance `gen`. -/
  | add_to_perambulator (thread_id dil_t dil_e : Nat) (gen : Inst)
  /-- The release loop of lines 173-177 for sample `rnd_id`. -/
  | release (rnd_id : Nat)
  /-- Line 192. -/
  | hack_clean
  /-- Line 199. -/
  | write_perambulator_to_disk (rnd_id : Nat)
  /-- Line 204. -/
  | reset_perambulator_and_randomvector (rnd_id : Nat)
  /-- Line 208. -/
  | clean
  deriving DecidableEq, Repr

/-- The thread issuing an event; the serial part of `main` runs on the initial
thread, which is thread 0 of every team. -/
def Ev.thread : Ev → Nat
  | .create_source i _ _ => i
  | .tmLQCD_invert i _ _ _ _ _ => i
  | .omp_barrier i => i
  | .exchange i => i
  | .add_to_perambulator i _ _ _ => i
  | _ => 0

/-! ## The parallel region (lines 102-167) -/

/-- The two propagator handles `propagators_t0`, `propagators_t1`: which outer
array each of them currently designates. -/
structure Handles where
  propagators_t0 : Inst
  propagators_t1 : Inst
  deriving DecidableEq, Repr

/-- Lines 112-145: source creation and the inversions of one `(dil_t, dil_e)`,
with `D = param.dilution_size_so[2]`. -/
def produce (num_threads thread_id dil_t dil_e D : Nat) (h : Handles) : List Ev :=
  if num_threads == 1 || thread_id == 0 then
    Ev.create_source thread_id dil_t dil_e ::
      (List.range D).map
        (fun dil_d => Ev.tmLQCD_invert thread_id dil_t dil_e h.propagators_t0 dil_d dil_d)
  else []

/-- Lines 149-154: effect of the pointer exchange on the handles. -/
def exchange (num_threads thread_id : Nat) (h : Handles) : Handles :=
  if num_threads == 1 || thread_id == 0 then
    let propagators_temp := h.propagators_t1
    { propagators_t1 := h.propagators_t0, propagators_t0 := propagators_temp }
  else h

/-- Lines 149-154: the event of the pointer exchange. -/
def exchangeEv (num_threads thread_id : Nat) : List Ev :=
  if num_threads == 1 || thread_id == 0 then [Ev.exchange thread_id] else []

/-- Lines 159-164: the accumulation call of one `(dil_t, dil_e)`. -/
def consume (num_threads thread_id dil_t dil_e : Nat) (h : Handles) : List Ev :=
  if num_threads == 1 || decide (thread_id ≥ 1) then
    [Ev.add_to_perambulator thread_id dil_t dil_e h.propagators_t1]
  else []

/-- The iterations of the nested loops of lines 108-109 in execution order. -/
def dilutionPairs (T E : Nat) : List (Nat × Nat) :=
  (List.range T).flatMap (fun dil_t => (List.range E).map (fun dil_e => (dil_t, dil_e)))

/-- What every thread does between two consecutive barriers: entry `i` is the
list of calls of thread `i`. -/
abbrev Phase := List (List Ev)

/-- Accumulation segment a thread still has to run when it enters the next
loop iteration (or leaves the loop): lines 159-164 of the previous iteration. -/
def carried (num_threads thread_id : Nat) (prev : Option (Nat × Nat)) (h : Handles) :
    List Ev :=
  match prev with
  | none => []
  | some (dil_t, dil_e) => consume num_threads thread_id dil_t dil_e h

/-- The handles after all threads of the team have passed lines 149-154. -/
def exchangeAll (num_threads : Nat) (h : Handles) : Handles :=
  (List.range num_threads).foldl (fun h thread_id => exchange num_threads thread_id h) h

/-- The barrier-delimited phases of the parallel region for the remaining loop
iterations, and the handles when the region is left.  For every iteration:
the phase ending at the barrier of line 148 (accumulation of the previous
iteration, lines 159-164, followed by lines 112-145), then the phase ending at
the barrier of line 155 (lines 149-154).  After the last iteration the threads
run lines 159-164 once more and leave the loops. -/
def passPhases (num_threads D : Nat) :
    Handles → Option (Nat × Nat) → List (Nat × Nat) → List Phase × Handles
  | h, prev, [] =>
    ([(List.range num_threads).map (fun thread_id => carried num_threads thread_id prev h)], h)
  | h, prev, (dil_t, dil_e) :: rest =>
    let phaseA : Phase := (List.range num_threads).map (fun thread_id =>
      carried num_threads thread_id prev h ++ produce num_threads thread_id dil_t dil_e D h
        ++ [Ev.omp_barrier thread_id])
    let phaseB : Phase := (List.range num_threads).map (fun thread_id =>
      exchangeEv num_threads thread_id ++ [Ev.omp_barrier thread_id])
    let r := passPhases num_threads D (exchangeAll num_threads h) (some (dil_t, dil_e)) rest
    (phaseA :: phaseB :: r.1, r.2)

/-- One execution order of a phase: the schedule names the thread that issues
its next call; a thread that has no call left is skipped, and when the schedule
is used up the remaining calls are issued thread by thread. -/
def linearise : List Nat → Phase → List Ev
  | [], ts => ts.flatten
  | i :: s, ts =>
    match ts[i]? with
    | some (a :: rest) => a :: linearise s (ts.set i rest)
    | _ => linearise s ts

/-- The calls of a sequence of phases, phase `k + j` scheduled by `sched (k + j)`. -/
def runPhases (sched : Nat → List Nat) : Nat → List Phase → List Ev
  | _, [] => []
  | k, ph :: rest => linearise (sched k) ph ++ runPhases sched (k + 1) rest

/-- The calls of one pass through the parallel region with a team of
`num_threads` threads and dilution extents `T`, `E`, `D`. -/
def passTrace (sched : Nat → List Nat) (num_threads T E D : Nat) (h : Handles) : List Ev :=
  runPhases sched 0 (passPhases num_threads D h none (dilutionPairs T E)).1

/-- The handles after one pass through the parallel region. -/
def passHandles (num_threads T E D : Nat) (h : Handles) : Handles :=
  (passPhases num_threads D h none (dilutionPairs T E)).2

/-- Modelled from the spec: the body of `add_to_perambulator` is missing; one
accumulation at `(t, e, d)` is counted for every `d` in `[0, D)` per call. -/
def accumulations (D : Nat) : Ev → List (Nat × Nat × Nat)
  | .add_to_perambulator _ dil_t dil_e _ => (List.range D).map (fun d => (dil_t, dil_e, d))
  | _ => []

/-- The accumulations of a list of calls, in order. -/
def accumulateSeq (D : Nat) (l : List Ev) : List (Nat × Nat × Nat) :=
  l.flatMap (accumulations D)

/-- The index space in nested order, `t` outermost, `d` innermost. -/
def dilutionTriples (T E D : Nat) : List (Nat × Nat × Nat) :=
  (List.range T).flatMap (fun t =>
    (List.range E).flatMap (fun e => (List.range D).map (fun d => (t, e, d))))

/-! ## The serial part of `main` -/

/-- The fields of `LapH::input_parameter` that `main` reads;
`dilution_size_so` holds the three dilution extents `[0]`, `[1]`, `[2]`,
`Lt` and `Ls` the lattice extents. -/
structure input_parameter where
  hack_clean : Bool
  nb_rnd : Nat
  dilution_size_so : Nat × Nat × Nat
  Lt : Int
  Ls : Int
  deriving DecidableEq, Repr

/-- What the surroundings of the program decide: the number `numprocs` of MPI
processes (line 18, at least 1), whether the array `new` of lines 79-81 succeed, and
whether the memory suffices for the buffers of sample `rnd_id` (lines 92-94).
The declaration of `Lt` and `Ls` is not part of the source file:
`extents_64bit` says whether they are 64-bit unsigned integers or `int`. -/
structure Machine where
  numprocs : Nat
  extents_64bit : Bool
  arrays_ok : Bool
  buffers_ok : Nat → Bool

/-- How a run ends: `exit(code)` or `return code`, or the abort of the process
by an uncaught exception of an array `new`. -/
inductive Outcome
  | exit (code : Nat)
  | abort
  deriving DecidableEq, Repr

/-- The value of a 32-bit `int` an integer is converted to. -/
def wrapInt (x : Int) : Int :=
  if x % 4294967296 < 2147483648 then x % 4294967296 else x % 4294967296 - 4294967296

/-- Line 83, `int length = 3*4*param.Lt*param.Ls*param.Ls*param.Ls/numprocs`:
with `int` extents every product is an `int` and the division truncates; with
64-bit unsigned extents the products are taken modulo `2^64` and the quotient
is converted to `int`. -/
def length (param : input_parameter) (mach : Machine) : Int :=
  if mach.extents_64bit then
    wrapInt ((3 * 4 * param.Lt * param.Ls * param.Ls * param.Ls) % 18446744073709551616
      / (mach.numprocs : Int))
  else
    Int.tdiv (wrapInt (wrapInt (wrapInt (wrapInt (3 * 4 * param.Lt) * param.Ls) * param.Ls)
      * param.Ls)) (mach.numprocs : Int)

/-- Lines 91-95: whether a `new std::complex<double>[length]` of the
allocation loop of sample `rnd_id` throws.  The loop body runs only when
`nb_of_inversions` is positive; the array `new` throws when `length` is
negative or when the memory does not suffice. -/
def allocationFails (param : input_parameter) (mach : Machine) (rnd_id : Nat) : Bool :=
  decide (0 < param.dilution_size_so.2.2) &&
    (decide (length param mach < 0) || !mach.buffers_ok rnd_id)

/-- The handles as initialised at lines 80-81; `sources` is instance 0. -/
def initialHandles : Handles := { propagators_t0 := 1, propagators_t1 := 2 }

/-- The instance the pointer `sources` designates (line 79). -/
def sourcesInst : Inst := 0

/-- Lines 87-205, the body of the loop over random vectors for sample `rnd_id`;
returns the calls and the handles left behind for the next sample. -/
def rndBody (param : input_parameter) (num_threads : Nat) (sched : Nat → List Nat)
    (rnd_id : Nat) (h : Handles) : List Ev × Handles :=
  ([Ev.allocate rnd_id]
    ++ passTrace sched num_threads param.dilution_size_so.1 param.dilution_size_so.2.1
        param.dilution_size_so.2.2 h
    ++ [Ev.release rnd_id]
    ++ (if param.hack_clean then [Ev.tmLQCD_finalise, Ev.MPI_Barrier, Ev.hack_clean] else [])
    ++ [Ev.MPI_Barrier, Ev.write_perambulator_to_disk rnd_id, Ev.MPI_Barrier]
    ++ (if decide (rnd_id < param.nb_rnd - 1) && !param.hack_clean then
          [Ev.reset_perambulator_and_randomvector (rnd_id + 1)] else [])
    ++ [Ev.MPI_Barrier],
   passHandles num_threads param.dilution_size_so.1 param.dilution_size_so.2.1
     param.dilution_size_so.2.2 h)

/-- Lines 86-206, the loop over random vectors, for the remaining sample ids;
`sched rnd_id` schedules the parallel region of sample `rnd_id`.  Returns the
calls and whether the loop ran to its end; it does not when an array `new` of
an allocation loop throws. -/
def rndLoop (param : input_parameter) (num_threads : Nat) (sched : Nat → Nat → List Nat)
    (mach : Machine) : List Nat → Handles → List Ev × Bool
  | [], _ => ([], true)
  | rnd_id :: rest, h =>
    if allocationFails param mach rnd_id then ([], false)
    else
      let r := rndBody param num_threads (sched rnd_id) rnd_id h
      let q := rndLoop param num_threads sched mach rest r.2
      (r.1 ++ q.1, q.2)

/-- The program `main`: the calls it issues and how it ends, for the parsed
parameters, the status `gauge_read` returned by `tmLQCD_read_gauge`, the size
`num_threads` of the OpenMP team, the schedules of the parallel regions and
the machine. -/
def main (param : input_parameter) (gauge_read : Int) (num_threads : Nat)
    (sched : Nat → Nat → List Nat) (mach : Machine) : List Ev × Outcome :=
  let start := [Ev.tmLQCD_invert_init, Ev.MPI_Barrier, Ev.parse_input_file]
  if param.hack_clean && decide (param.nb_rnd > 1) then
    (start ++ [Ev.tmLQCD_finalise, Ev.MPI_Finalize], Outcome.exit 123)
  else
    let loaded := start ++ [Ev.MPI_Barrier, Ev.tmLQCD_read_gauge, Ev.MPI_Barrier]
    if gauge_read < 0 then
      (loaded ++ [Ev.tmLQCD_finalise, Ev.MPI_Finalize], Outcome.exit 222)
    else
      let initialised := loaded ++ [Ev.dis_initialise, Ev.MPI_Barrier]
      if !mach.arrays_ok then (initialised, Outcome.abort)
      else
        let q := rndLoop param num_threads sched mach (List.range param.nb_rnd) initialHandles
        if q.2 then (initialised ++ q.1 ++ [Ev.clean, Ev.MPI_Finalize], Outcome.exit 0)
        else (initialised ++ q.1, Outcome.abort)

/-- A machine with one process on which every allocation succeeds; the
lattice extents are `int`. -/
def roomyMachine : Machine :=
  { numprocs := 1, extents_64bit := false, arrays_ok := true, buffers_ok := fun _ => true }

/-! ## The heap of element buffers -/

/-- The element buffers: `next` is the next fresh address, `live` the buffers
created and not yet destroyed, `cell a i` the pointer stored in `a[i]` of the
outer array `a`. -/
structure Heap where
  next : Nat
  live : List Nat
  cell : Inst → Nat → Nat

/-- The statement `a[i] = new std::complex<double>[length]`. -/
def Heap.new (m : Heap) (a : Inst) (i : Nat) : Heap :=
  { next := m.next + 1
    live := m.next :: m.live
    cell := fun b j => if b = a ∧ j = i then m.next else m.cell b j }

/-- The statement `delete[] a[i]`; destroying a buffer that is not live is an
error. -/
def Heap.delete (m : Heap) (a : Inst) (i : Nat) : Option Heap :=
  if m.cell a i ∈ m.live then some { m with live := m.live.erase (m.cell a i) } else none

/-- Lines 91-95, the allocation loop with `D = nb_of_inversions`. -/
def allocLoop (D : Nat) (h : Handles) (m : Heap) : Heap :=
  (List.range D).foldl
    (fun m i => ((m.new sourcesInst i).new h.propagators_t1 i).new h.propagators_t0 i) m

/-- Lines 173-177, the release loop with `D = nb_of_inversions`. -/
def releaseLoop (D : Nat) (h : Handles) (m : Heap) : Option Heap :=
  (List.range D).foldlM
    (fun m i => do
      let m ← m.delete sourcesInst i
      let m ← m.delete h.propagators_t1 i
      m.delete h.propagators_t0 i) m

/-- The effect of one sample on handles and heap: allocation loop, parallel
region (which only exchanges the handles), release loop. -/
def sampleHeap (num_threads T E D : Nat) (s : Handles × Heap) : Option (Handles × Heap) :=
  let allocated := allocLoop D s.1 s.2
  let h := passHandles num_threads T E D s.1
  (releaseLoop D h allocated).map (fun m => (h, m))

/-- The effect of `R` consecutive samples on handles and heap. -/
def samplesHeap (num_threads T E D : Nat) : Nat → Handles × Heap → Option (Handles × Heap)
  | 0, s => some s
  | R + 1, s => (sampleHeap num_threads T E D s).bind (samplesHeap num_threads T E D R)

/-- The heap at program start: no element buffer exists. -/
def emptyHeap : Heap := { next := 0, live := [], cell := fun _ _ => 0 }

/-! ## Auxiliary notions used in the statements -/

/-- Every call listed for thread `j` of a phase is issued by thread `off + j`. -/
def Tagged (off : Nat) (ts : Phase) : Prop :=
  ∀ j ev, ev ∈ ts.getD j [] → ev.thread = off + j

/-- The handles after `k` pointer exchanges. -/
def handlesAt (h : Handles) (k : Nat) : Handles :=
  if k % 2 = 0 then h
  else { propagators_t0 := h.propagators_t1, propagators_t1 := h.propagators_t0 }

/-- The calls of thread `i` in a sequence of phases, in program order. -/
def threadView (i : Nat) (phases : List Phase) : List Ev :=
  phases.flatMap (fun ph => ph.getD i [])

/-- Lines 112-164 as executed by thread `i` in the iteration number `x.1` of
the nested loops, which has `(dil_t, dil_e) = x.2`. -/
def iteration (num_threads D i : Nat) (h0 : Handles) (x : Nat × Nat × Nat) : List Ev :=
  produce num_threads i x.2.1 x.2.2 D (handlesAt h0 x.1) ++ [Ev.omp_barrier i]
    ++ exchangeEv num_threads i ++ [Ev.omp_barrier i]
    ++ consume num_threads i x.2.1 x.2.2 (handlesAt h0 (x.1 + 1))

/-- The calls of the producer role: source creation and inversion. -/
def Ev.isProducerCall : Ev → Bool
  | .create_source _ _ _ => true
  | .tmLQCD_invert _ _ _ _ _ _ => true
  | _ => false

/-- The accumulation call. -/
def Ev.isAccumulate : Ev → Bool
  | .add_to_perambulator _ _ _ _ => true
  | _ => false

/-- The generation instance a call writes: only the solver writes. -/
def Ev.writes : Ev → Option Inst
  | .tmLQCD_invert _ _ _ out _ _ => some out
  | _ => none

/-- The generation instance a call reads: only the accumulator reads. -/
def Ev.reads : Ev → Option Inst
  | .add_to_perambulator _ _ _ gen => some gen
  | _ => none

/-- The pointer exchange. -/
def Ev.isExchange : Ev → Bool
  | .exchange _ => true
  | _ => false

/-- Some occurrence of `a` lies before some occurrence of `b` in `l`. -/
def Before (a b : Ev) (l : List Ev) : Prop :=
  ∃ l1 l2, l = l1 ++ l2 ∧ a ∈ l1 ∧ b ∈ l2

/-- Some phase listing `a` lies before some phase listing `b`. -/
def PhaseBefore (a b : Ev) (phases : List Phase) : Prop :=
  ∃ P1 P2, phases = P1 ++ P2 ∧ (∃ ph ∈ P1, a ∈ ph.getD a.thread []) ∧
    (∃ ph ∈ P2, b ∈ ph.getD b.thread [])

/-- The calls issued inside the parallel region. -/
def Ev.isPassCall : Ev → Bool
  | .create_source _ _ _ => true
  | .tmLQCD_invert _ _ _ _ _ _ => true
  | .omp_barrier _ => true
  | .exchange _ => true
  | .add_to_perambulator _ _ _ _ => true
  | _ => false

/-- The buffer lifecycle events: the allocation loop and the release loop. -/
def Ev.isLifecycle : Ev → Bool
  | .allocate _ => true
  | .release _ => true
  | _ => false

/-- Persisting and resetting the perambulator. -/
def Ev.isPersistOrReset : Ev → Bool
  | .write_perambulator_to_disk _ => true
  | .reset_perambulator_and_randomvector _ => true
  | _ => false

/-- The calls issued before the first occurrence of `x`. -/
def callsBefore (x : Ev) (l : List Ev) : List Ev :=
  l.takeWhile (fun ev => ev != x)

/-- The calls issued after the first occurrence of `x`. -/
def callsAfter (x : Ev) (l : List Ev) : List Ev :=
  (l.dropWhile (fun ev => ev != x)).drop 1

/-- The calls issued after the first `a` and before the next `b`. -/
def callsBetween (a b : Ev) (l : List Ev) : List Ev :=
  callsBefore b (callsAfter a l)

/-- The number of consumer threads in a team of `num_threads` threads. -/
def consumers (num_threads : Nat) : Nat :=
  if num_threads = 1 then 1 else num_threads - 1

/-- The calls of the loop over random vectors for the sample ids `ids` when no
allocation fails. -/
def rndLoopDone (param : input_parameter) (num_threads : Nat) (sched : Nat → Nat → List Nat) :
    List Nat → Handles → List Ev
  | [], _ => []
  | rnd_id :: rest, h =>
    let r := rndBody param num_threads (sched rnd_id) rnd_id h
    r.1 ++ rndLoopDone param num_threads sched rest r.2

/-- Lines 179-195: the calls of the low-memory hack. -/
def hackCalls (param : input_parameter) : List Ev :=
  if param.hack_clean then [Ev.tmLQCD_finalise, Ev.MPI_Barrier, Ev.hack_clean] else []

/-- Lines 203-204: the reset for the next sample. -/
def resetCalls (param : input_parameter) (rnd_id : Nat) : List Ev :=
  if decide (rnd_id < param.nb_rnd - 1) && !param.hack_clean then
    [Ev.reset_perambulator_and_randomvector (rnd_id + 1)] else []

/-- The calls of the loop body after the release loop: lines 179-205. -/
def bodyTail (param : input_parameter) (rnd_id : Nat) : List Ev :=
  hackCalls param ++ Ev.MPI_Barrier :: Ev.write_perambulator_to_disk rnd_id ::
    Ev.MPI_Barrier :: (resetCalls param rnd_id ++ [Ev.MPI_Barrier])

/-- The calls before the loop over random vectors in a run that passes the
start-up checks: lines 32-75. -/
def startCalls : List Ev :=
  [Ev.tmLQCD_invert_init, Ev.MPI_Barrier, Ev.parse_input_file, Ev.MPI_Barrier,
    Ev.tmLQCD_read_gauge, Ev.MPI_Barrier, Ev.dis_initialise, Ev.MPI_Barrier]

/-- The operations of the Solver, the SourceGenerator and the Accumulator:
solver init, inversion and finalise, source creation, accumulation, persist,
reset, the degraded teardown and the shutdown. -/
def Ev.isCollaboratorCall : Ev → Bool
  | .tmLQCD_invert_init => true
  | .tmLQCD_invert _ _ _ _ _ _ => true
  | .tmLQCD_finalise => true
  | .create_source _ _ _ => true
  | .add_to_perambulator _ _ _ _ => true
  | .write_perambulator_to_disk _ => true
  | .reset_perambulator_and_randomvector _ => true
  | .hack_clean => true
  | .clean => true
  | _ => false

/-- The handles with the two designations exchanged. -/
def swapHandles (h : Handles) : Handles :=
  { propagators_t0 := h.propagators_t1, propagators_t1 := h.propagators_t0 }

/-- The pointers the release loop destroys in iteration `i`. -/
def released (h : Handles) (m : Heap) (i : Nat) : List Nat :=
  [m.cell sourcesInst i, m.cell h.propagators_t1 i, m.cell h.propagators_t0 i]

/-- What holds between two samples: the handles designate the two propagator
arrays, which differ from each other and from `sources`, and no element
buffer is live. -/
def BetweenSamples (s : Handles × Heap) : Prop :=
  s.1.propagators_t0 ≠ s.1.propagators_t1 ∧ s.1.propagators_t0 ≠ sourcesInst ∧
    s.1.propagators_t1 ≠ sourcesInst ∧ s.2.live = []

/-- The execution orders of a phase: `l` is obtained by repeatedly letting
some thread that has a call left issue its next call, until no thread has a
call left. -/
inductive Interleaving : Phase → List Ev → Prop
  | done (ts : Phase) : (∀ t ∈ ts, t = []) → Interleaving ts []
  | step (ts : Phase) (i : Nat) (a : Ev) (rest l : List Ev) :
      ts[i]? = some (a :: rest) → Interleaving (ts.set i rest) l → Interleaving ts (a :: l)


/-! ## Linearisations keep every thread's program order -/


theorem Tagged.tail {off : Nat} {t : List Ev} {ts : Phase} (h : Tagged off (t :: ts)) :
    Tagged (off + 1) ts := by
  intro j ev hev
  have := h (j + 1) ev (by simpa using hev)
  omega

theorem Tagged.set {off : Nat} {ts : Phase} (h : Tagged off ts) (i : Nat) (a : Ev)
    (rest : List Ev) (hi : ts[i]? = some (a :: rest)) : Tagged off (ts.set i rest) := by
  intro j ev hev
  by_cases hij : i = j
  · subst hij
    have hlt : i < ts.length := by
      rcases List.getElem?_eq_some_iff.1 hi with ⟨hlt, _⟩
      exact hlt
    apply h i ev
    rw [List.getD_eq_getElem?_getD, hi]
    rw [List.getD_eq_getElem?_getD, List.getElem?_set_self (by simpa using hlt)] at hev
    simp at hev ⊢
    exact Or.inr hev
  · apply h j ev
    rw [List.getD_eq_getElem?_getD] at hev ⊢
    rwa [List.getElem?_set_ne hij] at hev

theorem flatten_filter_none (off : Nat) (ts : Phase) (h : Tagged off ts) (i : Nat)
    (hi : i < off) : (ts.flatten).filter (fun ev => ev.thread == i) = [] := by
  rw [List.filter_eq_nil_iff]
  intro ev hev
  rcases List.mem_flatten.1 hev with ⟨t, ht, hevt⟩
  rcases List.getElem_of_mem ht with ⟨j, hj, rfl⟩
  have := h j ev (by
    rw [List.getD_eq_getElem?_getD, List.getElem?_eq_getElem hj]
    simpa using hevt)
  simp
  omega

theorem flatten_filter_thread (ts : Phase) : ∀ (off : Nat), Tagged off ts → ∀ i,
    (ts.flatten).filter (fun ev => ev.thread == off + i) = ts.getD i [] := by
  induction ts with
  | nil => intro off _ i; simp
  | cons t ts ih =>
    intro off h i
    rw [List.flatten_cons, List.filter_append]
    cases i with
    | zero =>
      have h1 : t.filter (fun ev => ev.thread == off + 0) = t := by
        rw [List.filter_eq_self]
        intro ev hev
        have := h 0 ev (by simpa using hev)
        simpa using this
      have h2 := flatten_filter_none (off + 1) ts h.tail off (by omega)
      rw [h1]
      simp only [Nat.add_zero] at h2 ⊢
      rw [h2]
      simp
    | succ i =>
      have h1 : t.filter (fun ev => ev.thread == off + (i + 1)) = [] := by
        rw [List.filter_eq_nil_iff]
        intro ev hev
        have := h 0 ev (by simpa using hev)
        simp
        omega
      have h2 := ih (off + 1) h.tail i
      rw [h1]
      have e : off + 1 + i = off + (i + 1) := by omega
      rw [e] at h2
      rw [h2]
      simp

/-- In every linearisation of a phase the calls of thread `i` appear exactly
in the order in which thread `i` issues them. -/
theorem linearise_filter_thread (s : List Nat) : ∀ (ts : Phase), Tagged 0 ts → ∀ i,
    (linearise s ts).filter (fun ev => ev.thread == i) = ts.getD i [] := by
  induction s with
  | nil =>
    intro ts h i
    have := flatten_filter_thread ts 0 h i
    simpa [linearise] using this
  | cons i0 s ih =>
    intro ts h i
    unfold linearise
    split
    next a rest heq =>
      have hlt : i0 < ts.length := by
        rcases List.getElem?_eq_some_iff.1 heq with ⟨hlt, _⟩
        exact hlt
      have ha : a.thread = i0 := by
        have := h i0 a (by rw [List.getD_eq_getElem?_getD, heq]; simp)
        simpa using this
      have ih' := ih (ts.set i0 rest) (h.set i0 a rest heq) i
      rw [List.filter_cons]
      by_cases hi : i0 = i
      · subst hi
        simp only [ha, beq_self_eq_true, if_true]
        rw [ih']
        rw [List.getD_eq_getElem?_getD, List.getD_eq_getElem?_getD, heq,
          List.getElem?_set_self (by simpa using hlt)]
        simp
      · have : (a.thread == i) = false := by simp [ha, hi]
        simp only [this]
        rw [ih']
        rw [List.getD_eq_getElem?_getD, List.getD_eq_getElem?_getD, List.getElem?_set_ne hi]
        simp
    next => exact ih ts h i

/-- Every execution order of a phase is produced by some schedule, so a
statement proved for all schedules holds for all execution orders. -/
theorem linearise_complete (ts : Phase) (l : List Ev) (h : Interleaving ts l) :
    ∃ s, linearise s ts = l := by
  induction h with
  | done ts hts =>
    refine ⟨[], ?_⟩
    simp only [linearise, List.flatten_eq_nil_iff]
    exact hts
  | step ts i a rest l hi _ ih =>
    obtain ⟨s, hs⟩ := ih
    refine ⟨i :: s, ?_⟩
    simp only [linearise, hi, hs]

/-! ## The program order of one thread -/

theorem handlesAt_succ (h : Handles) (k : Nat) :
    handlesAt h (k + 1) =
      { propagators_t0 := (handlesAt h k).propagators_t1,
        propagators_t1 := (handlesAt h k).propagators_t0 } := by
  unfold handlesAt
  rcases Nat.mod_two_eq_zero_or_one k with hk | hk
  · have : (k + 1) % 2 = 1 := by omega
    simp [hk, this]
  · have : (k + 1) % 2 = 0 := by omega
    simp [hk, this]

theorem handlesAt_zero (h : Handles) : handlesAt h 0 = h := by
  simp [handlesAt]

theorem foldl_exchange_id (N : Nat) (hN : N ≠ 1) (l : List Nat) (hl : ∀ j ∈ l, j ≠ 0)
    (h : Handles) : l.foldl (fun h thread_id => exchange N thread_id h) h = h := by
  induction l generalizing h with
  | nil => rfl
  | cons j l ih =>
    have hj : j ≠ 0 := hl j (by simp)
    rw [List.foldl_cons]
    have : exchange N j h = h := by simp [exchange, hN, hj]
    rw [this]
    exact ih (fun j hj => hl j (by simp [hj])) h

/-- With a team of at least one thread the handles are exchanged exactly once
between the two barriers. -/
theorem exchangeAll_eq (N : Nat) (hN : 1 ≤ N) (h : Handles) :
    exchangeAll N h =
      { propagators_t0 := h.propagators_t1, propagators_t1 := h.propagators_t0 } := by
  obtain ⟨M, rfl⟩ : ∃ M, N = M + 1 := ⟨N - 1, by omega⟩
  unfold exchangeAll
  rw [List.range_succ_eq_map, List.foldl_cons]
  have h0 : exchange (M + 1) 0 h =
      { propagators_t0 := h.propagators_t1, propagators_t1 := h.propagators_t0 } := by
    simp [exchange]
  rw [h0]
  by_cases hM : M = 0
  · subst hM; simp
  · exact foldl_exchange_id (M + 1) (by omega) _ (by simp) _

theorem exchangeAll_handlesAt (N : Nat) (hN : 1 ≤ N) (h : Handles) (k : Nat) :
    exchangeAll N (handlesAt h k) = handlesAt h (k + 1) := by
  rw [exchangeAll_eq N hN, handlesAt_succ]

theorem getD_range_map (N : Nat) (f : Nat → List Ev) (i : Nat) :
    ((List.range N).map f).getD i [] = if i < N then f i else [] := by
  rw [List.getD_eq_getElem?_getD, List.getElem?_map]
  by_cases h : i < N
  · simp [h, List.getElem?_range h]
  · have : (List.range N)[i]? = none := by
      rw [List.getElem?_eq_none_iff]; simpa using h
    simp [h, this]

theorem tagged_range_map (N : Nat) (f : Nat → List Ev)
    (hf : ∀ i ev, ev ∈ f i → ev.thread = i) : Tagged 0 ((List.range N).map f) := by
  intro j ev hev
  rw [getD_range_map] at hev
  by_cases h : j < N
  · simp only [h, if_true] at hev
    simpa using hf j ev hev
  · simp [h] at hev

theorem thread_of_produce {N i t e D : Nat} {h : Handles} {ev : Ev}
    (hev : ev ∈ produce N i t e D h) : ev.thread = i := by
  unfold produce at hev
  split at hev
  · simp at hev
    rcases hev with rfl | ⟨d, _, rfl⟩ <;> rfl
  · simp at hev

theorem thread_of_consume {N i t e : Nat} {h : Handles} {ev : Ev}
    (hev : ev ∈ consume N i t e h) : ev.thread = i := by
  unfold consume at hev
  split at hev
  · simp at hev; subst hev; rfl
  · simp at hev

theorem thread_of_carried {N i : Nat} {prev : Option (Nat × Nat)} {h : Handles} {ev : Ev}
    (hev : ev ∈ carried N i prev h) : ev.thread = i := by
  unfold carried at hev
  split at hev
  · simp at hev
  · exact thread_of_consume hev

theorem thread_of_exchangeEv {N i : Nat} {ev : Ev}
    (hev : ev ∈ exchangeEv N i) : ev.thread = i := by
  unfold exchangeEv at hev
  split at hev
  · simp at hev; subst hev; rfl
  · simp at hev

/-- Every phase of the parallel region lists under thread `i` only calls issued
by thread `i`. -/
theorem passPhases_tagged (N D : Nat) (its : List (Nat × Nat)) :
    ∀ (h : Handles) (prev : Option (Nat × Nat)),
      ∀ ph ∈ (passPhases N D h prev its).1, Tagged 0 ph := by
  induction its with
  | nil =>
    intro h prev ph hph
    simp only [passPhases, List.mem_singleton] at hph
    subst hph
    exact tagged_range_map N _ (fun i ev hev => thread_of_carried hev)
  | cons x rest ih =>
    intro h prev ph hph
    obtain ⟨t, e⟩ := x
    simp only [passPhases, List.mem_cons] at hph
    rcases hph with rfl | rfl | hph
    · apply tagged_range_map
      intro i ev hev
      simp only [List.mem_append, List.mem_singleton] at hev
      rcases hev with (hev | hev) | rfl
      · exact thread_of_carried hev
      · exact thread_of_produce hev
      · rfl
    · apply tagged_range_map
      intro i ev hev
      simp only [List.mem_append, List.mem_singleton] at hev
      rcases hev with hev | rfl
      · exact thread_of_exchangeEv hev
      · rfl
    · exact ih _ _ ph hph

/-- In every schedule of a sequence of phases the calls of thread `i` appear in
the program order of thread `i`. -/
theorem runPhases_filter_thread (sched : Nat → List Nat) (i : Nat) (phases : List Phase) :
    ∀ k, (∀ ph ∈ phases, Tagged 0 ph) →
      (runPhases sched k phases).filter (fun ev => ev.thread == i) = threadView i phases := by
  induction phases with
  | nil => intro k _; simp [runPhases, threadView]
  | cons ph rest ih =>
    intro k h
    simp only [runPhases, List.filter_append, threadView, List.flatMap_cons]
    rw [linearise_filter_thread (sched k) ph (h ph (by simp)) i]
    have := ih (k + 1) (fun ph hph => h ph (by simp [hph]))
    rw [this]
    rfl

/-- The program order of thread `i` in the parallel region: the pending
accumulation call, then lines 112-164 for every remaining iteration. -/
theorem threadView_passPhases (N D i : Nat) (hN : 1 ≤ N) (hi : i < N) (h0 : Handles)
    (its : List (Nat × Nat)) : ∀ (k : Nat) (prev : Option (Nat × Nat)),
      threadView i (passPhases N D (handlesAt h0 k) prev its).1 =
        carried N i prev (handlesAt h0 k)
          ++ (its.enumFrom k).flatMap (iteration N D i h0) := by
  induction its with
  | nil =>
    intro k prev
    simp [passPhases, threadView, getD_range_map, hi]
  | cons x rest ih =>
    intro k prev
    obtain ⟨t, e⟩ := x
    have ih' := ih (k + 1) (some (t, e))
    simp only [passPhases, exchangeAll_handlesAt N hN]
    simp only [threadView, List.flatMap_cons, getD_range_map, hi, if_true] at ih' ⊢
    rw [ih']
    simp [List.enumFrom_cons, iteration, carried, List.append_assoc]

/-- In every schedule of the parallel region the calls of thread `i` appear in
the program order of thread `i`. -/
theorem passTrace_filter_thread (sched : Nat → List Nat) (N T E D i : Nat) (hN : 1 ≤ N)
    (hi : i < N) (h : Handles) :
    (passTrace sched N T E D h).filter (fun ev => ev.thread == i) =
      ((dilutionPairs T E).enumFrom 0).flatMap (iteration N D i h) := by
  unfold passTrace
  rw [runPhases_filter_thread sched i _ 0 (passPhases_tagged N D _ _ _)]
  have := threadView_passPhases N D i hN hi h (dilutionPairs T E) 0 none
  rw [handlesAt_zero] at this
  rw [this]
  simp [carried]

/-! ## Numbering of the loop iterations -/

theorem dilutionPairs_succ (T E : Nat) :
    dilutionPairs (T + 1) E = dilutionPairs T E ++ (List.range E).map (fun e => (T, e)) := by
  simp [dilutionPairs, List.range_succ, List.flatMap_append]

theorem length_dilutionPairs (T E : Nat) : (dilutionPairs T E).length = T * E := by
  induction T with
  | zero => simp [dilutionPairs]
  | succ T ih => rw [dilutionPairs_succ, List.length_append, ih]; simp [Nat.succ_mul]

theorem enumFrom_range_map (n E : Nat) (f : Nat → Nat × Nat) :
    ((List.range E).map f).enumFrom n = (List.range E).map (fun e => (n + e, f e)) := by
  apply List.ext_getElem?
  intro i
  rw [List.getElem?_enumFrom, List.getElem?_map, List.getElem?_map]
  by_cases h : i < E
  · simp [List.getElem?_range h]
  · have : (List.range E)[i]? = none := by
      rw [List.getElem?_eq_none_iff]; simpa using h
    simp [this]

/-- Iteration `(dil_t, dil_e)` of the nested loops is iteration number
`dil_t * E + dil_e`. -/
theorem enumFrom_dilutionPairs (T E : Nat) :
    (dilutionPairs T E).enumFrom 0 = (dilutionPairs T E).map (fun p => (p.1 * E + p.2, p)) := by
  induction T with
  | zero => simp [dilutionPairs]
  | succ T ih =>
    rw [dilutionPairs_succ, List.enumFrom_append, ih, List.map_append, length_dilutionPairs,
      enumFrom_range_map]
    simp

theorem mem_dilutionPairs (T E : Nat) (p : Nat × Nat) :
    p ∈ dilutionPairs T E ↔ p.1 < T ∧ p.2 < E := by
  obtain ⟨t, e⟩ := p
  simp [dilutionPairs]

/-- The calls of thread `i` in the parallel region, in program order, with
the iterations numbered by `dil_t * E + dil_e`. -/
theorem passTrace_thread (sched : Nat → List Nat) (N T E D i : Nat) (hN : 1 ≤ N)
    (hi : i < N) (h : Handles) :
    (passTrace sched N T E D h).filter (fun ev => ev.thread == i) =
      (dilutionPairs T E).flatMap (fun p => iteration N D i h (p.1 * E + p.2, p)) := by
  rw [passTrace_filter_thread sched N T E D i hN hi h, enumFrom_dilutionPairs,
    List.flatMap_def, List.map_map, ← List.flatMap_def]
  rfl

theorem threadView_passPhases_none (N D i : Nat) (hi : ¬ i < N) (its : List (Nat × Nat)) :
    ∀ (h : Handles) (prev : Option (Nat × Nat)),
      threadView i (passPhases N D h prev its).1 = [] := by
  induction its with
  | nil =>
    intro h prev
    simp only [passPhases, threadView, List.flatMap_cons, List.flatMap_nil, getD_range_map, hi,
      if_false, List.append_nil]
  | cons x rest ih =>
    intro h prev
    obtain ⟨t, e⟩ := x
    have ih' := ih (exchangeAll N h) (some (t, e))
    simp only [threadView, passPhases, List.flatMap_cons, getD_range_map, hi, if_false] at ih' ⊢
    simpa using ih'

/-- Only the threads of the team issue calls in the parallel region. -/
theorem thread_lt_of_mem_passTrace (sched : Nat → List Nat) (N T E D : Nat) (h : Handles)
    (ev : Ev) (hev : ev ∈ passTrace sched N T E D h) : ev.thread < N := by
  by_contra hlt
  have hmem : ev ∈ (passTrace sched N T E D h).filter (fun x => x.thread == ev.thread) := by
    simp [List.mem_filter, hev]
  unfold passTrace at hmem
  rw [runPhases_filter_thread sched ev.thread _ 0 (passPhases_tagged N D _ _ _),
    threadView_passPhases_none N D ev.thread hlt] at hmem
  simp at hmem

/-- A call occurs in the parallel region iff it occurs in the program order of
its thread. -/
theorem mem_passTrace (sched : Nat → List Nat) (N T E D : Nat) (hN : 1 ≤ N) (h : Handles)
    (ev : Ev) :
    ev ∈ passTrace sched N T E D h ↔
      ev.thread < N ∧
        ∃ p ∈ dilutionPairs T E, ev ∈ iteration N D ev.thread h (p.1 * E + p.2, p) := by
  constructor
  · intro hev
    have hlt := thread_lt_of_mem_passTrace sched N T E D h ev hev
    have hmem : ev ∈ (passTrace sched N T E D h).filter (fun x => x.thread == ev.thread) := by
      simp [List.mem_filter, hev]
    rw [passTrace_thread sched N T E D ev.thread hN hlt h] at hmem
    exact ⟨hlt, by simpa [List.mem_flatMap] using hmem⟩
  · rintro ⟨hlt, p, hp, hev⟩
    have hmem : ev ∈ (passTrace sched N T E D h).filter (fun x => x.thread == ev.thread) := by
      rw [passTrace_thread sched N T E D ev.thread hN hlt h]
      exact List.mem_flatMap.2 ⟨p, hp, hev⟩
    exact (List.mem_filter.1 hmem).1

/-- Filtering for a kind of call that only thread `c` issues can be done in
the program order of thread `c`. -/
theorem filter_eq_filter_thread (l : List Ev) (p : Ev → Bool) (c : Nat)
    (hp : ∀ ev ∈ l, p ev = true → ev.thread = c) :
    l.filter p = (l.filter (fun ev => ev.thread == c)).filter p := by
  rw [List.filter_filter]
  apply List.filter_congr
  intro ev hev
  by_cases h : p ev = true
  · simp [h, hp ev hev h]
  · simp [h]

/-! ## Accumulation calls (consumer role) -/

theorem accumulateSeq_append (D : Nat) (l1 l2 : List Ev) :
    accumulateSeq D (l1 ++ l2) = accumulateSeq D l1 ++ accumulateSeq D l2 := by
  simp [accumulateSeq, List.flatMap_append]

theorem accumulateSeq_produce (D' N i t e D : Nat) (h : Handles) :
    accumulateSeq D' (produce N i t e D h) = [] := by
  unfold produce accumulateSeq
  split
  · simp only [List.flatMap_cons, accumulations, List.nil_append]
    rw [List.flatMap_def, List.map_map]
    simp [Function.comp_def, accumulations]
  · rfl

theorem accumulateSeq_exchangeEv (D N i : Nat) : accumulateSeq D (exchangeEv N i) = [] := by
  unfold exchangeEv accumulateSeq
  split <;> simp [accumulations]

theorem accumulateSeq_iteration (N D i : Nat) (h : Handles) (x : Nat × Nat × Nat) :
    accumulateSeq D (iteration N D i h x) =
      if N = 1 ∨ 1 ≤ i then (List.range D).map (fun d => (x.2.1, x.2.2, d)) else [] := by
  unfold iteration
  simp only [accumulateSeq_append, accumulateSeq_produce, accumulateSeq_exchangeEv]
  by_cases hc : N = 1 ∨ 1 ≤ i
  · have : (N == 1 || decide (i ≥ 1)) = true := by simpa using hc
    simp [consume, this, hc, accumulateSeq, accumulations]
  · have : (N == 1 || decide (i ≥ 1)) = false := by
      simp only [not_or] at hc
      simp [hc.1]
      omega
    simp [consume, this, hc, accumulateSeq, accumulations]

theorem flatMap_pairs_triples (T E D : Nat) :
    (dilutionPairs T E).flatMap (fun p => (List.range D).map (fun d => (p.1, p.2, d))) =
      dilutionTriples T E D := by
  simp [dilutionPairs, dilutionTriples, List.flatMap_assoc, List.flatMap_map]

/-- The accumulations made by thread `c` in the parallel region. -/
theorem accumulateSeq_thread (sched : Nat → List Nat) (N T E D c : Nat) (hN : 1 ≤ N)
    (hc : c < N) (h : Handles) :
    accumulateSeq D ((passTrace sched N T E D h).filter (fun ev => ev.thread == c)) =
      if N = 1 ∨ 1 ≤ c then dilutionTriples T E D else [] := by
  rw [passTrace_thread sched N T E D c hN hc h]
  unfold accumulateSeq
  rw [List.flatMap_assoc]
  have : ∀ p : Nat × Nat, (iteration N D c h (p.1 * E + p.2, p)).flatMap (accumulations D) =
      if N = 1 ∨ 1 ≤ c then (List.range D).map (fun d => (p.1, p.2, d)) else [] := by
    intro p
    exact accumulateSeq_iteration N D c h (p.1 * E + p.2, p)
  simp only [this]
  by_cases hcc : N = 1 ∨ 1 ≤ c
  · simp only [hcc, if_true]
    exact flatMap_pairs_triples T E D
  · simp [hcc]

theorem accumulateSeq_filter_none (sched : Nat → List Nat) (N T E D c : Nat) (hc : ¬ c < N)
    (h : Handles) :
    (passTrace sched N T E D h).filter (fun ev => ev.thread == c) = [] := by
  rw [List.filter_eq_nil_iff]
  intro ev hev
  have := thread_lt_of_mem_passTrace sched N T E D h ev hev
  simp
  omega

theorem accumulateSeq_filter_isAccumulate (D : Nat) (l : List Ev) :
    accumulateSeq D (l.filter Ev.isAccumulate) = accumulateSeq D l := by
  induction l with
  | nil => rfl
  | cons a l ih =>
    unfold accumulateSeq at ih ⊢
    cases a <;> simp [List.filter_cons, Ev.isAccumulate, accumulations, ih]

theorem accumulate_thread (sched : Nat → List Nat) (N T E D : Nat) (h : Handles)
    (hN : 1 ≤ N) (ev : Ev) (hev : ev ∈ passTrace sched N T E D h)
    (hp : ev.isAccumulate = true) : ev.thread < N ∧ (N = 1 ∨ 1 ≤ ev.thread) := by
  rcases (mem_passTrace sched N T E D hN h ev).1 hev with ⟨hlt, p, _, hmem⟩
  refine ⟨hlt, ?_⟩
  generalize ev.thread = i at hmem hlt ⊢
  simp only [iteration, produce, exchangeEv, consume, List.mem_append, List.mem_singleton]
    at hmem
  rcases hmem with (((hmem | rfl) | hmem) | rfl) | hmem
  · split at hmem
    · simp at hmem
      rcases hmem with rfl | ⟨d, _, rfl⟩ <;> simp [Ev.isAccumulate] at hp
    · simp at hmem
  · simp [Ev.isAccumulate] at hp
  · split at hmem
    · simp at hmem; subst hmem; simp [Ev.isAccumulate] at hp
    · simp at hmem
  · simp [Ev.isAccumulate] at hp
  · split at hmem
    next hc => simpa using hc
    next => simp at hmem

theorem count_flatMap_partition (f : Ev → List (Nat × Nat × Nat)) (x : Nat × Nat × Nat) (N : Nat)
    (l : List Ev) (hl : ∀ ev ∈ l, ev.thread < N) :
    (l.flatMap f).count x =
      ∑ i in Finset.range N, ((l.filter (fun ev => ev.thread == i)).flatMap f).count x := by
  induction l with
  | nil => simp
  | cons a l ih =>
    have ha : a.thread < N := hl a (by simp)
    have ih' := ih (fun ev hev => hl ev (by simp [hev]))
    have hterm : ∀ i, (((a :: l).filter (fun ev => ev.thread == i)).flatMap f).count x =
        (if a.thread = i then (f a).count x else 0)
          + ((l.filter (fun ev => ev.thread == i)).flatMap f).count x := by
      intro i
      by_cases hi : a.thread = i
      · simp [List.filter_cons, hi, List.count_append]
      · simp [List.filter_cons, hi]
    simp only [hterm, Finset.sum_add_distrib, List.flatMap_cons, List.count_append, ih']
    congr 1
    rw [Finset.sum_ite_eq]
    simp [ha]

theorem nodup_dilutionTriples (T E D : Nat) : (dilutionTriples T E D).Nodup := by
  unfold dilutionTriples
  rw [List.nodup_flatMap]
  constructor
  · intro t _
    rw [List.nodup_flatMap]
    constructor
    · intro e _
      exact (List.nodup_range D).map (fun a b hab => by simpa using hab)
    · apply (List.nodup_range E).pairwise_of_forall_ne
      intro a _ b _ hab
      simp only [Function.onFun, List.disjoint_left]
      intro x hx hx'
      simp at hx hx'
      rcases hx with ⟨d, _, rfl⟩
      rcases hx' with ⟨d', _, h'⟩
      simp at h'
      exact hab h'.1.symm
  · apply (List.nodup_range T).pairwise_of_forall_ne
    intro a _ b _ hab
    simp only [Function.onFun, List.disjoint_left]
    intro x hx hx'
    simp at hx hx'
    rcases hx with ⟨e, _, d, _, rfl⟩
    rcases hx' with ⟨e', _, d', _, h'⟩
    simp at h'
    exact hab h'.1.symm

theorem sum_consumers (N : Nat) (hN : 1 ≤ N) :
    (∑ i in Finset.range N, if N = 1 ∨ 1 ≤ i then 1 else 0) = if N = 1 then 1 else N - 1 := by
  obtain ⟨M, rfl⟩ : ∃ M, N = M + 1 := ⟨N - 1, by omega⟩
  by_cases hM : M = 0
  · subst hM; simp
  · rw [Finset.sum_range_succ']
    simp [hM]

theorem count_eq_one_of_nodup (l : List (Nat × Nat × Nat)) (hn : l.Nodup) (x : Nat × Nat × Nat)
    (hx : x ∈ l) : l.count x = 1 := by
  induction l with
  | nil => simp at hx
  | cons a l ih =>
    rw [List.nodup_cons] at hn
    rw [List.count_cons]
    by_cases hax : a = x
    · subst hax
      have : List.count a l = 0 := List.count_eq_zero.2 hn.1
      simp [this]
    · have hx' : x ∈ l := by
        rcases List.mem_cons.1 hx with h | h
        · exact absurd h.symm hax
        · exact h
      simp [hax, ih hn.2 hx']

/-- In every schedule of the parallel region every triple of the dilution
space is accumulated once per consumer thread. -/
theorem count_accumulateSeq_passTrace (sched : Nat → List Nat) (N T E D : Nat) (h : Handles)
    (hN : 1 ≤ N) (x : Nat × Nat × Nat) (hx : x ∈ dilutionTriples T E D) :
    (accumulateSeq D (passTrace sched N T E D h)).count x = consumers N := by
  unfold accumulateSeq consumers
  rw [count_flatMap_partition (accumulations D) x N _
    (fun ev hev => thread_lt_of_mem_passTrace sched N T E D h ev hev)]
  rw [← sum_consumers N hN]
  apply Finset.sum_congr rfl
  intro i hi
  have hi' : i < N := by simpa using hi
  have := accumulateSeq_thread sched N T E D i hN hi' h
  unfold accumulateSeq at this
  rw [this]
  by_cases hcc : N = 1 ∨ 1 ≤ i
  · simp only [hcc, if_true]
    exact count_eq_one_of_nodup _ (nodup_dilutionTriples T E D) x hx
  · simp [hcc]

/-! ## Which calls occur, and in which phase -/

theorem handlesAt_ne (h : Handles) (hne : h.propagators_t0 ≠ h.propagators_t1) (k : Nat) :
    (handlesAt h k).propagators_t0 ≠ (handlesAt h k).propagators_t1 := by
  unfold handlesAt
  split
  · exact hne
  · exact fun e => hne e.symm

/-- The accumulation calls of the parallel region: every consumer thread
calls `add_to_perambulator(t, e, .)` for every pair, and passes the instance
that `propagators_t0` designated during iteration `t * E + e`. -/
theorem mem_add_to_perambulator (sched : Nat → List Nat) (N T E D : Nat) (hN : 1 ≤ N)
    (h : Handles) (c t e g : Nat) :
    Ev.add_to_perambulator c t e g ∈ passTrace sched N T E D h ↔
      c < N ∧ (N = 1 ∨ 1 ≤ c) ∧ t < T ∧ e < E ∧
        g = (handlesAt h (t * E + e)).propagators_t0 := by
  rw [mem_passTrace sched N T E D hN h]
  simp only [Ev.thread, iteration, produce, exchangeEv, consume, List.mem_append,
    List.mem_singleton, handlesAt_succ]
  constructor
  · rintro ⟨hc, p, hp, hmem⟩
    rw [mem_dilutionPairs] at hp
    rcases hmem with (((hmem | hmem) | hmem) | hmem) | hmem
    · split at hmem <;> simp at hmem
    · simp at hmem
    · split at hmem <;> simp at hmem
    · simp at hmem
    · split at hmem
      next hcc =>
        simp at hmem
        obtain ⟨rfl, rfl, rfl⟩ := hmem
        exact ⟨hc, by simpa using hcc, hp.1, hp.2, rfl⟩
      next => simp at hmem
  · rintro ⟨hc, hcc, ht, he, rfl⟩
    refine ⟨hc, (t, e), (mem_dilutionPairs T E (t, e)).2 ⟨ht, he⟩, Or.inr ?_⟩
    have : (N == 1 || decide (c ≥ 1)) = true := by simpa using hcc
    simp [this]

/-- The inversions of the parallel region: thread 0 calls the solver for every
triple, reading `sources[d]` and writing index `d` of the instance that
`propagators_t0` designates during iteration `t * E + e`. -/
theorem mem_tmLQCD_invert (sched : Nat → List Nat) (N T E D : Nat) (hN : 1 ≤ N)
    (h : Handles) (i t e g d s : Nat) :
    Ev.tmLQCD_invert i t e g d s ∈ passTrace sched N T E D h ↔
      i = 0 ∧ t < T ∧ e < E ∧ d < D ∧ s = d ∧
        g = (handlesAt h (t * E + e)).propagators_t0 := by
  rw [mem_passTrace sched N T E D hN h]
  simp only [Ev.thread, iteration, produce, exchangeEv, consume, List.mem_append,
    List.mem_singleton]
  constructor
  · rintro ⟨hc, p, hp, hmem⟩
    rw [mem_dilutionPairs] at hp
    rcases hmem with (((hmem | hmem) | hmem) | hmem) | hmem
    · split at hmem
      next hcc =>
        simp at hmem
        obtain ⟨d', hd', rfl, rfl, rfl, rfl, rfl⟩ := hmem
        have hi : i = 0 := by
          simp at hcc
          omega
        exact ⟨hi, hp.1, hp.2, hd', rfl, rfl⟩
      next => simp at hmem
    · simp at hmem
    · split at hmem <;> simp at hmem
    · simp at hmem
    · split at hmem <;> simp at hmem
  · rintro ⟨rfl, ht, he, hd, rfl, rfl⟩
    refine ⟨by omega, (t, e), (mem_dilutionPairs T E (t, e)).2 ⟨ht, he⟩, ?_⟩
    left; left; left; left
    simp [hd]

/-! ## Order across barriers -/

theorem mem_linearise_iff (s : List Nat) (ts : Phase) (hts : Tagged 0 ts) (ev : Ev) :
    ev ∈ linearise s ts ↔ ev ∈ ts.getD ev.thread [] := by
  rw [← linearise_filter_thread s ts hts ev.thread, List.mem_filter]
  simp

theorem mem_runPhases_iff (sched : Nat → List Nat) (ev : Ev) (phases : List Phase) :
    ∀ k, (∀ ph ∈ phases, Tagged 0 ph) →
      (ev ∈ runPhases sched k phases ↔ ∃ ph ∈ phases, ev ∈ ph.getD ev.thread []) := by
  induction phases with
  | nil => intro k _; simp [runPhases]
  | cons ph rest ih =>
    intro k h
    simp only [runPhases, List.mem_append, List.mem_cons, exists_eq_or_imp]
    rw [mem_linearise_iff (sched k) ph (h ph (by simp)) ev,
      ih (k + 1) (fun ph hph => h ph (by simp [hph]))]

theorem runPhases_append (sched : Nat → List Nat) (P1 P2 : List Phase) :
    ∀ k, runPhases sched k (P1 ++ P2) =
      runPhases sched k P1 ++ runPhases sched (k + P1.length) P2 := by
  induction P1 with
  | nil => intro k; simp [runPhases]
  | cons ph rest ih =>
    intro k
    have e : k + 1 + rest.length = k + (rest.length + 1) := by omega
    rw [List.cons_append, runPhases, runPhases, ih (k + 1), List.append_assoc, List.length_cons, e]

/-- Calls listed in an earlier phase are issued before calls listed in a
later phase, whatever the schedules are. -/
theorem before_of_phaseBefore (sched : Nat → List Nat) (a b : Ev) (phases : List Phase)
    (k : Nat) (htag : ∀ ph ∈ phases, Tagged 0 ph) (hb : PhaseBefore a b phases) :
    Before a b (runPhases sched k phases) := by
  obtain ⟨P1, P2, rfl, ha, hb⟩ := hb
  refine ⟨runPhases sched k P1, runPhases sched (k + P1.length) P2,
    runPhases_append sched P1 P2 k, ?_, ?_⟩
  · exact (mem_runPhases_iff sched a P1 k (fun ph hph => htag ph (by simp [hph]))).2 ha
  · exact (mem_runPhases_iff sched b P2 _ (fun ph hph => htag ph (by simp [hph]))).2 hb

theorem phaseBefore_cons (a b : Ev) (ph : Phase) (phases : List Phase)
    (h : PhaseBefore a b phases) : PhaseBefore a b (ph :: phases) := by
  obtain ⟨P1, P2, rfl, ha, hb⟩ := h
  refine ⟨ph :: P1, P2, rfl, ?_, hb⟩
  obtain ⟨q, hq, haq⟩ := ha
  exact ⟨q, by simp [hq], haq⟩

/-- The first phase after a barrier of line 155 lists the pending accumulation
call of every thread. -/
theorem carried_in_first_phase (N D : Nat) (its : List (Nat × Nat)) (h : Handles)
    (prev : Option (Nat × Nat)) :
    ∃ ph ∈ (passPhases N D h prev its).1,
      ∀ c, c < N → ∀ b ∈ carried N c prev h, b ∈ ph.getD c [] := by
  cases its with
  | nil =>
    refine ⟨(List.range N).map (fun thread_id => carried N thread_id prev h),
      by simp [passPhases], ?_⟩
    intro c hc b hb
    rw [getD_range_map]
    simpa [hc] using hb
  | cons x rest =>
    obtain ⟨t, e⟩ := x
    refine ⟨_, by simp only [passPhases]; exact List.mem_cons_self _ _, ?_⟩
    intro c hc b hb
    rw [getD_range_map]
    simp [hc, hb]

/-- Source creation and inversions of a pair `(t, e)` are listed in a phase
before the phase listing the accumulation calls of that pair: the two
barriers of the iteration lie between them. -/
theorem produce_phaseBefore_consume (N D : Nat) (hN : 1 ≤ N) (its : List (Nat × Nat)) :
    ∀ (h : Handles) (prev : Option (Nat × Nat)) (t e : Nat), (t, e) ∈ its →
      ∃ hj : Handles, ∀ a ∈ produce N 0 t e D hj, ∀ c, c < N →
        ∀ b ∈ consume N c t e (exchangeAll N hj),
          PhaseBefore a b (passPhases N D h prev its).1 := by
  induction its with
  | nil => intro h prev t e hmem; simp at hmem
  | cons x rest ih =>
    intro h prev t e hmem
    obtain ⟨t0, e0⟩ := x
    rcases List.mem_cons.1 hmem with heq | hrest
    · obtain ⟨rfl, rfl⟩ := Prod.mk.inj heq
      refine ⟨h, ?_⟩
      intro a ha c hc b hb
      obtain ⟨ph, hph, hcar⟩ :=
        carried_in_first_phase N D rest (exchangeAll N h) (some (t, e))
      simp only [passPhases]
      refine ⟨[_], _, rfl, ⟨_, List.mem_singleton_self _, ?_⟩, ⟨ph, ?_, ?_⟩⟩
      · rw [thread_of_produce ha, getD_range_map]
        simp [hN, ha]
        omega
      · exact List.mem_cons_of_mem _ hph
      · rw [thread_of_consume hb]
        exact hcar c hc b (by simpa [carried] using hb)
    · obtain ⟨hj, hhj⟩ := ih (exchangeAll N h) (some (t0, e0)) t e hrest
      refine ⟨hj, ?_⟩
      intro a ha c hc b hb
      simp only [passPhases]
      exact phaseBefore_cons _ _ _ _ (phaseBefore_cons _ _ _ _ (hhj a ha c hc b hb))

/-! ## The serial part: structure of a run -/

theorem isPassCall_of_produce {N i t e D : Nat} {h : Handles} {ev : Ev}
    (hev : ev ∈ produce N i t e D h) : ev.isPassCall = true := by
  unfold produce at hev
  split at hev
  · simp at hev
    rcases hev with rfl | ⟨d, _, rfl⟩ <;> rfl
  · simp at hev

theorem isPassCall_of_carried {N i : Nat} {prev : Option (Nat × Nat)} {h : Handles} {ev : Ev}
    (hev : ev ∈ carried N i prev h) : ev.isPassCall = true := by
  unfold carried at hev
  split at hev
  · simp at hev
  · unfold consume at hev
    split at hev
    · simp at hev; subst hev; rfl
    · simp at hev

theorem isPassCall_of_exchangeEv {N i : Nat} {ev : Ev}
    (hev : ev ∈ exchangeEv N i) : ev.isPassCall = true := by
  unfold exchangeEv at hev
  split at hev
  · simp at hev; subst hev; rfl
  · simp at hev

theorem isPassCall_of_mem_phases (N D : Nat) (its : List (Nat × Nat)) :
    ∀ (h : Handles) (prev : Option (Nat × Nat)),
      ∀ ph ∈ (passPhases N D h prev its).1, ∀ i, ∀ ev ∈ ph.getD i [],
        ev.isPassCall = true := by
  induction its with
  | nil =>
    intro h prev ph hph i ev hev
    simp only [passPhases, List.mem_singleton] at hph
    subst hph
    rw [getD_range_map] at hev
    split at hev
    · exact isPassCall_of_carried hev
    · simp at hev
  | cons x rest ih =>
    intro h prev ph hph i ev hev
    obtain ⟨t, e⟩ := x
    simp only [passPhases, List.mem_cons] at hph
    rcases hph with rfl | rfl | hph
    · rw [getD_range_map] at hev
      split at hev
      · simp only [List.mem_append, List.mem_singleton] at hev
        rcases hev with (hev | hev) | rfl
        · exact isPassCall_of_carried hev
        · exact isPassCall_of_produce hev
        · rfl
      · simp at hev
    · rw [getD_range_map] at hev
      split at hev
      · simp only [List.mem_append, List.mem_singleton] at hev
        rcases hev with hev | rfl
        · exact isPassCall_of_exchangeEv hev
        · rfl
      · simp at hev
    · exact ih _ _ ph hph i ev hev

/-- The parallel region issues only source creation, inversion, barrier,
exchange and accumulation calls. -/
theorem isPassCall_of_mem_passTrace (sched : Nat → List Nat) (N T E D : Nat) (h : Handles)
    (ev : Ev) (hev : ev ∈ passTrace sched N T E D h) : ev.isPassCall = true := by
  unfold passTrace at hev
  rw [mem_runPhases_iff sched ev _ 0 (passPhases_tagged N D _ _ _)] at hev
  obtain ⟨ph, hph, hmem⟩ := hev
  exact isPassCall_of_mem_phases N D _ _ _ ph hph _ ev hmem

theorem rndBody_eq (param : input_parameter) (N : Nat) (sched : Nat → List Nat)
    (rnd_id : Nat) (h : Handles) :
    (rndBody param N sched rnd_id h).1 =
      Ev.allocate rnd_id ::
        (passTrace sched N param.dilution_size_so.1 param.dilution_size_so.2.1
            param.dilution_size_so.2.2 h
          ++ Ev.release rnd_id :: bodyTail param rnd_id) := by
  simp [rndBody, bodyTail, hackCalls, resetCalls, List.append_assoc]

theorem rndLoop_cons (param : input_parameter) (N : Nat) (sched : Nat → Nat → List Nat)
    (rnd_id : Nat) (rest : List Nat) (h : Handles) :
    rndLoopDone param N sched (rnd_id :: rest) h =
      (rndBody param N (sched rnd_id) rnd_id h).1
        ++ rndLoopDone param N sched rest (rndBody param N (sched rnd_id) rnd_id h).2 := rfl

theorem rndLoop_append (param : input_parameter) (N : Nat) (sched : Nat → Nat → List Nat)
    (l1 l2 : List Nat) : ∀ h : Handles, ∃ h' : Handles,
      rndLoopDone param N sched (l1 ++ l2) h =
        rndLoopDone param N sched l1 h ++ rndLoopDone param N sched l2 h' := by
  induction l1 with
  | nil => intro h; exact ⟨h, by simp [rndLoopDone]⟩
  | cons r l1 ih =>
    intro h
    obtain ⟨h', hh'⟩ := ih (rndBody param N (sched r) r h).2
    refine ⟨h', ?_⟩
    rw [List.cons_append, rndLoop_cons, rndLoop_cons, hh', List.append_assoc]

/-- The loop over random vectors runs to its end iff no allocation loop
fails, and then its calls are those of `rndLoopDone`. -/
theorem rndLoop_completed (param : input_parameter) (N : Nat) (sched : Nat → Nat → List Nat)
    (mach : Machine) (ids : List Nat) : ∀ h : Handles,
    ((rndLoop param N sched mach ids h).2 = true ↔
      ∀ rnd ∈ ids, allocationFails param mach rnd = false) ∧
    ((rndLoop param N sched mach ids h).2 = true →
      (rndLoop param N sched mach ids h).1 = rndLoopDone param N sched ids h) := by
  induction ids with
  | nil => intro h; simp [rndLoop, rndLoopDone]
  | cons r ids ih =>
    intro h
    by_cases hf : allocationFails param mach r = true
    · simp [rndLoop, hf]
    · have hf' : allocationFails param mach r = false := by simpa using hf
      obtain ⟨ih1, ih2⟩ := ih (rndBody param N (sched r) r h).2
      simp only [rndLoop, hf', Bool.false_eq_true, if_false, List.mem_cons, forall_eq_or_imp,
        true_and, rndLoopDone]
      refine ⟨ih1, ?_⟩
      intro hc
      rw [ih2 hc]

/-- A run cut down to what decides its outcome once both start-up checks have
passed. -/
theorem main_started (param : input_parameter) (gauge_read : Int) (N : Nat)
    (sched : Nat → Nat → List Nat) (mach : Machine)
    (hc : ¬ (param.hack_clean = true ∧ 1 < param.nb_rnd)) (hg : ¬ gauge_read < 0) :
    (∃ rest, (main param gauge_read N sched mach).1 = startCalls ++ rest) ∧
    ((main param gauge_read N sched mach).2 = Outcome.exit 0 ∨
      (main param gauge_read N sched mach).2 = Outcome.abort) ∧
    ((main param gauge_read N sched mach).2 = Outcome.exit 0 ↔
      (mach.arrays_ok = true ∧
        ∀ rnd, rnd < param.nb_rnd → allocationFails param mach rnd = false)) ∧
    ((main param gauge_read N sched mach).2 = Outcome.exit 0 →
      (main param gauge_read N sched mach).1 =
        startCalls ++ (rndLoopDone param N sched (List.range param.nb_rnd) initialHandles
          ++ [Ev.clean, Ev.MPI_Finalize])) := by
  have hc' : ¬ (param.hack_clean && decide (param.nb_rnd > 1)) = true := by simpa using hc
  obtain ⟨hl1, hl2⟩ :=
    rndLoop_completed param N sched mach (List.range param.nb_rnd) initialHandles
  unfold main
  simp only [hc', hg, if_false]
  by_cases ha : mach.arrays_ok = true
  · simp only [ha, Bool.not_true, Bool.false_eq_true, if_false]
    by_cases hq : (rndLoop param N sched mach (List.range param.nb_rnd) initialHandles).2 = true
    · simp only [hq, if_true]
      refine ⟨⟨_, by simp [startCalls]; rfl⟩, by simp, ?_, ?_⟩
      · simp only [true_and, true_iff]
        intro rnd hr
        exact hl1.1 hq rnd (by simpa using hr)
      · intro _
        rw [hl2 hq]
        simp [startCalls]
    · simp only [hq, Bool.false_eq_true, if_false]
      refine ⟨⟨_, by simp [startCalls]; rfl⟩, by simp, ?_, ?_⟩
      · simp only [true_and, false_iff, reduceCtorEq]
        intro hall
        exact hq (hl1.2 (fun rnd hr => hall rnd (by simpa using hr)))
      · intro h; simp at h
  · have ha' : mach.arrays_ok = false := by simpa using ha
    simp only [ha', Bool.not_false, if_true]
    refine ⟨⟨[], by simp [startCalls]⟩, by simp, ?_, ?_⟩
    · simp
    · intro h; simp at h

theorem main_rejected (param : input_parameter) (gauge_read : Int) (N : Nat)
    (sched : Nat → Nat → List Nat) (mach : Machine)
    (hc : param.hack_clean = true ∧ 1 < param.nb_rnd) :
    main param gauge_read N sched mach =
      ([Ev.tmLQCD_invert_init, Ev.MPI_Barrier, Ev.parse_input_file, Ev.tmLQCD_finalise,
        Ev.MPI_Finalize], Outcome.exit 123) := by
  have hc' : (param.hack_clean && decide (param.nb_rnd > 1)) = true := by simp [hc.1, hc.2]
  unfold main
  simp [hc']

theorem main_gauge_failed (param : input_parameter) (gauge_read : Int) (N : Nat)
    (sched : Nat → Nat → List Nat) (mach : Machine)
    (hc : ¬ (param.hack_clean = true ∧ 1 < param.nb_rnd)) (hg : gauge_read < 0) :
    main param gauge_read N sched mach =
      ([Ev.tmLQCD_invert_init, Ev.MPI_Barrier, Ev.parse_input_file, Ev.MPI_Barrier,
        Ev.tmLQCD_read_gauge, Ev.MPI_Barrier, Ev.tmLQCD_finalise, Ev.MPI_Finalize],
        Outcome.exit 222) := by
  have hc' : ¬ (param.hack_clean && decide (param.nb_rnd > 1)) = true := by simpa using hc
  unfold main
  simp [hc', hg]

/-- A run has exit code 0 only when it passes both start-up checks, and then
it consists of the start-up calls, the loop over random vectors and the two
final calls. -/
theorem main_exit_zero (param : input_parameter) (gauge_read : Int) (N : Nat)
    (sched : Nat → Nat → List Nat) (mach : Machine)
    (hv : (main param gauge_read N sched mach).2 = Outcome.exit 0) :
    ¬ (param.hack_clean = true ∧ 1 < param.nb_rnd) ∧ ¬ gauge_read < 0 ∧
    (main param gauge_read N sched mach).1 =
      startCalls ++ (rndLoopDone param N sched (List.range param.nb_rnd) initialHandles
        ++ [Ev.clean, Ev.MPI_Finalize]) := by
  by_cases hc : param.hack_clean = true ∧ 1 < param.nb_rnd
  · rw [main_rejected param gauge_read N sched mach hc] at hv
    simp at hv
  · by_cases hg : gauge_read < 0
    · rw [main_gauge_failed param gauge_read N sched mach hc hg] at hv
      simp at hv
    · exact ⟨hc, hg, (main_started param gauge_read N sched mach hc hg).2.2.2 hv⟩

theorem range_split (R rnd : Nat) (hr : rnd < R) :
    ∃ l2, List.range R = List.range rnd ++ rnd :: l2 ∧ ∀ r ∈ l2, rnd < r := by
  induction R with
  | zero => omega
  | succ R ih =>
    by_cases h : rnd = R
    · subst h
      exact ⟨[], by simp [List.range_succ], by simp⟩
    · obtain ⟨l2, hl2, hlt⟩ := ih (by omega)
      refine ⟨l2 ++ [R], by simp [List.range_succ, hl2], ?_⟩
      intro r hr'
      simp only [List.mem_append, List.mem_singleton] at hr'
      rcases hr' with hr' | rfl
      · exact hlt r hr'
      · omega

theorem callsBefore_append_of_not_mem (x : Ev) (A B : List Ev) (hA : x ∉ A) :
    callsBefore x (A ++ B) = A ++ callsBefore x B := by
  induction A with
  | nil => rfl
  | cons a A ih =>
    have ha : a ≠ x := fun e => hA (by simp [e])
    have hA' : x ∉ A := fun hm => hA (by simp [hm])
    have ih' := ih hA'
    unfold callsBefore at ih' ⊢
    simp [List.takeWhile_cons, ha, ih']

theorem callsBefore_cons_self (x : Ev) (B : List Ev) : callsBefore x (x :: B) = [] := by
  simp [callsBefore, List.takeWhile_cons]

theorem callsAfter_append_of_not_mem (x : Ev) (A B : List Ev) (hA : x ∉ A) :
    callsAfter x (A ++ B) = callsAfter x B := by
  induction A with
  | nil => rfl
  | cons a A ih =>
    have ha : a ≠ x := fun e => hA (by simp [e])
    have hA' : x ∉ A := fun hm => hA (by simp [hm])
    have ih' := ih hA'
    unfold callsAfter at ih' ⊢
    simp [List.dropWhile_cons, ha, ih']

theorem callsAfter_cons_self (x : Ev) (B : List Ev) : callsAfter x (x :: B) = B := by
  simp [callsAfter, List.dropWhile_cons]

/-- The calls of the loop body apart from the lifecycle events and the calls of
the parallel region. -/
theorem mem_bodyTail (param : input_parameter) (rnd_id : Nat) (ev : Ev)
    (hev : ev ∈ bodyTail param rnd_id) :
    ev = Ev.tmLQCD_finalise ∨ ev = Ev.MPI_Barrier ∨ ev = Ev.hack_clean ∨
      ev = Ev.write_perambulator_to_disk rnd_id ∨
      ev = Ev.reset_perambulator_and_randomvector (rnd_id + 1) := by
  unfold bodyTail hackCalls resetCalls at hev
  simp only [List.mem_append, List.mem_cons, List.not_mem_nil, or_false] at hev
  rcases hev with hev | rfl | rfl | rfl | hev | rfl
  · split at hev
    · simp at hev
      rcases hev with rfl | rfl | rfl <;> simp
    · simp at hev
  · simp
  · simp
  · simp
  · split at hev
    · simp at hev; simp [hev]
    · simp at hev
  · simp

theorem bodyTail_props (D : Nat) (param : input_parameter) (rnd_id : Nat) (ev : Ev)
    (hev : ev ∈ bodyTail param rnd_id) :
    ev.isLifecycle = false ∧ ev.isPassCall = false ∧ accumulations D ev = [] := by
  rcases mem_bodyTail param rnd_id ev hev with rfl | rfl | rfl | rfl | rfl <;>
    simp [Ev.isLifecycle, Ev.isPassCall, accumulations]

theorem mem_rndLoop (param : input_parameter) (N : Nat) (sched : Nat → Nat → List Nat)
    (ev : Ev) (ids : List Nat) : ∀ h : Handles, ev ∈ rndLoopDone param N sched ids h →
      ev.isPassCall = true ∨
        ∃ r ∈ ids, ev = Ev.allocate r ∨ ev = Ev.release r ∨ ev ∈ bodyTail param r := by
  induction ids with
  | nil => intro h hev; simp [rndLoopDone] at hev
  | cons r ids ih =>
    intro h hev
    rw [rndLoop_cons, List.mem_append] at hev
    rcases hev with hev | hev
    · rw [rndBody_eq] at hev
      simp only [List.mem_cons, List.mem_append] at hev
      rcases hev with rfl | hev | rfl | hev
      · exact Or.inr ⟨r, by simp, Or.inl rfl⟩
      · exact Or.inl (isPassCall_of_mem_passTrace _ _ _ _ _ _ ev hev)
      · exact Or.inr ⟨r, by simp, Or.inr (Or.inl rfl)⟩
      · exact Or.inr ⟨r, by simp, Or.inr (Or.inr hev)⟩
    · rcases ih _ hev with hp | ⟨r', hr', hcase⟩
      · exact Or.inl hp
      · exact Or.inr ⟨r', by simp [hr'], hcase⟩

theorem release_mem_rndLoop (param : input_parameter) (N : Nat)
    (sched : Nat → Nat → List Nat) (rnd : Nat) (ids : List Nat) (h : Handles)
    (hev : Ev.release rnd ∈ rndLoopDone param N sched ids h) : rnd ∈ ids := by
  rcases mem_rndLoop param N sched _ ids h hev with hp | ⟨r, hr, hcase⟩
  · simp [Ev.isPassCall] at hp
  · rcases hcase with hc | hc | hc
    · simp at hc
    · simp at hc; subst hc; exact hr
    · rcases mem_bodyTail param r _ hc with hc | hc | hc | hc | hc <;> simp at hc

theorem write_mem_rndLoop (param : input_parameter) (N : Nat)
    (sched : Nat → Nat → List Nat) (rnd : Nat) (ids : List Nat) (h : Handles)
    (hev : Ev.write_perambulator_to_disk rnd ∈ rndLoopDone param N sched ids h) : rnd ∈ ids := by
  rcases mem_rndLoop param N sched _ ids h hev with hp | ⟨r, hr, hcase⟩
  · simp [Ev.isPassCall] at hp
  · rcases hcase with hc | hc | hc
    · simp at hc
    · simp at hc
    · rcases mem_bodyTail param r _ hc with hc | hc | hc | hc | hc <;> simp at hc
      subst hc; exact hr

/-- A run with exit code 0 split at sample `rnd`: the start-up calls, the loop
over the samples before `rnd`, the loop body of `rnd`, and the rest. -/
theorem main_split (param : input_parameter) (gauge_read : Int) (N : Nat)
    (sched : Nat → Nat → List Nat) (mach : Machine) (hv : (main param gauge_read N sched mach).2 = Outcome.exit 0)
    (rnd : Nat) (hr : rnd < param.nb_rnd) :
    ∃ (h' : Handles) (rest : List Ev),
      (main param gauge_read N sched mach).1 =
        startCalls ++ (rndLoopDone param N sched (List.range rnd) initialHandles
          ++ ((rndBody param N (sched rnd) rnd h').1 ++ rest)) := by
  obtain ⟨_, _, htr⟩ := main_exit_zero param gauge_read N sched mach hv
  obtain ⟨l2, hl2, _⟩ := range_split param.nb_rnd rnd hr
  obtain ⟨h', hh'⟩ := rndLoop_append param N sched (List.range rnd) (rnd :: l2) initialHandles
  refine ⟨h', rndLoopDone param N sched l2 (rndBody param N (sched rnd) rnd h').2
    ++ [Ev.clean, Ev.MPI_Finalize], ?_⟩
  rw [htr, hl2, hh', rndLoop_cons]
  simp [List.append_assoc]

theorem not_mem_before (param : input_parameter) (N : Nat) (sched : Nat → Nat → List Nat)
    (rnd : Nat) (h : Handles) :
    Ev.release rnd ∉ startCalls ++ rndLoopDone param N sched (List.range rnd) h ∧
    Ev.write_perambulator_to_disk rnd ∉
      startCalls ++ rndLoopDone param N sched (List.range rnd) h := by
  constructor
  · intro hmem
    rcases List.mem_append.1 hmem with hm | hm
    · simp [startCalls] at hm
    · have := release_mem_rndLoop param N sched rnd _ h hm
      simp at this
  · intro hmem
    rcases List.mem_append.1 hmem with hm | hm
    · simp [startCalls] at hm
    · have := write_mem_rndLoop param N sched rnd _ h hm
      simp at this

theorem not_mem_passTrace_of_not_passCall (ev : Ev) (hp : ev.isPassCall = false)
    (sched : Nat → List Nat) (N T E D : Nat) (h : Handles) :
    ev ∉ passTrace sched N T E D h := by
  intro hmem
  rw [isPassCall_of_mem_passTrace sched N T E D h ev hmem] at hp
  simp at hp

/-- The calls of a run with exit code 0 up to the persisting of sample `rnd`. -/
theorem main_callsBefore_write (param : input_parameter) (gauge_read : Int) (N : Nat)
    (sched : Nat → Nat → List Nat) (mach : Machine) (hv : (main param gauge_read N sched mach).2 = Outcome.exit 0)
    (rnd : Nat) (hr : rnd < param.nb_rnd) :
    ∃ h' : Handles,
      callsBefore (Ev.write_perambulator_to_disk rnd) (main param gauge_read N sched mach).1 =
        startCalls ++ (rndLoopDone param N sched (List.range rnd) initialHandles
          ++ Ev.allocate rnd :: (passTrace (sched rnd) N param.dilution_size_so.1
              param.dilution_size_so.2.1 param.dilution_size_so.2.2 h'
            ++ Ev.release rnd :: (hackCalls param ++ [Ev.MPI_Barrier]))) := by
  obtain ⟨h', rest, htr⟩ := main_split param gauge_read N sched mach hv rnd hr
  refine ⟨h', ?_⟩
  have hnot := (not_mem_before param N sched rnd initialHandles).2
  have hpass := not_mem_passTrace_of_not_passCall (Ev.write_perambulator_to_disk rnd) rfl
    (sched rnd) N param.dilution_size_so.1 param.dilution_size_so.2.1
    param.dilution_size_so.2.2 h'
  have hhack : Ev.write_perambulator_to_disk rnd ∉ hackCalls param := by
    unfold hackCalls; split <;> simp
  rw [htr, ← List.append_assoc, callsBefore_append_of_not_mem _ _ _ hnot, rndBody_eq,
    List.append_assoc]
  congr 2
  have e : ∀ (P : List Ev), (Ev.allocate rnd :: (P ++ Ev.release rnd :: bodyTail param rnd))
      ++ rest =
      (Ev.allocate rnd :: (P ++ Ev.release rnd :: (hackCalls param ++ [Ev.MPI_Barrier]))) ++
        (Ev.write_perambulator_to_disk rnd ::
          (Ev.MPI_Barrier :: (resetCalls param rnd ++ [Ev.MPI_Barrier]) ++ rest)) := by
    intro P; simp [bodyTail]
  rw [e, callsBefore_append_of_not_mem _ _ _ (by simp [hpass, hhack]), callsBefore_cons_self]
  simp

/-- The calls of a run with exit code 0 between the release loop and the
persisting of sample `rnd`. -/
theorem main_callsBetween (param : input_parameter) (gauge_read : Int) (N : Nat)
    (sched : Nat → Nat → List Nat) (mach : Machine) (hv : (main param gauge_read N sched mach).2 = Outcome.exit 0)
    (rnd : Nat) (hr : rnd < param.nb_rnd) :
    callsBetween (Ev.release rnd) (Ev.write_perambulator_to_disk rnd)
        (main param gauge_read N sched mach).1 =
      hackCalls param ++ [Ev.MPI_Barrier] := by
  obtain ⟨h', rest, htr⟩ := main_split param gauge_read N sched mach hv rnd hr
  have hnot := (not_mem_before param N sched rnd initialHandles).1
  have hpass := not_mem_passTrace_of_not_passCall (Ev.release rnd) rfl (sched rnd) N
    param.dilution_size_so.1 param.dilution_size_so.2.1 param.dilution_size_so.2.2 h'
  have hhack : Ev.write_perambulator_to_disk rnd ∉ hackCalls param := by
    unfold hackCalls; split <;> simp
  unfold callsBetween
  rw [htr, ← List.append_assoc, callsAfter_append_of_not_mem _ _ _ hnot, rndBody_eq]
  have e : ∀ (P : List Ev), (Ev.allocate rnd :: (P ++ Ev.release rnd :: bodyTail param rnd))
      ++ rest = (Ev.allocate rnd :: P) ++ (Ev.release rnd :: (bodyTail param rnd ++ rest)) := by
    intro P; simp
  rw [e, callsAfter_append_of_not_mem _ _ _ (by simp [hpass]), callsAfter_cons_self]
  have e2 : bodyTail param rnd ++ rest = (hackCalls param ++ [Ev.MPI_Barrier]) ++
      (Ev.write_perambulator_to_disk rnd ::
        (Ev.MPI_Barrier :: (resetCalls param rnd ++ [Ev.MPI_Barrier]) ++ rest)) := by
    simp [bodyTail]
  rw [e2, callsBefore_append_of_not_mem _ _ _ (by simp [hhack]), callsBefore_cons_self]
  simp

theorem accumulateSeq_eq_nil (D : Nat) (l : List Ev) (hl : ∀ ev ∈ l, accumulations D ev = []) :
    accumulateSeq D l = [] := by
  unfold accumulateSeq
  rw [List.flatMap_eq_nil_iff]
  exact hl

theorem accumulateSeq_cons (D : Nat) (a : Ev) (l : List Ev) :
    accumulateSeq D (a :: l) = accumulations D a ++ accumulateSeq D l := by
  simp [accumulateSeq]

theorem accumulateSeq_startCalls (D : Nat) : accumulateSeq D startCalls = [] := by
  simp [accumulateSeq, startCalls, accumulations]

theorem accumulateSeq_hackCalls (D : Nat) (param : input_parameter) :
    accumulateSeq D (hackCalls param ++ [Ev.MPI_Barrier]) = [] := by
  unfold hackCalls
  split <;> simp [accumulateSeq, accumulations]

/-- After the loop over the samples `ids` every triple of the dilution space
has been accumulated once per consumer thread and sample. -/
theorem count_accumulateSeq_rndLoop (param : input_parameter) (N : Nat) (hN : 1 ≤ N)
    (sched : Nat → Nat → List Nat) (x : Nat × Nat × Nat)
    (hx : x ∈ dilutionTriples param.dilution_size_so.1 param.dilution_size_so.2.1
      param.dilution_size_so.2.2) (ids : List Nat) : ∀ h : Handles,
    (accumulateSeq param.dilution_size_so.2.2 (rndLoopDone param N sched ids h)).count x =
      ids.length * consumers N := by
  induction ids with
  | nil => intro h; simp [rndLoopDone, accumulateSeq]
  | cons r ids ih =>
    intro h
    rw [rndLoop_cons, accumulateSeq_append, List.count_append, ih, rndBody_eq,
      accumulateSeq_cons, accumulateSeq_append, accumulateSeq_cons,
      accumulateSeq_eq_nil _ (bodyTail param r)
        (fun ev hev => (bodyTail_props _ param r ev hev).2.2)]
    simp only [accumulations, List.nil_append, List.append_nil, List.length_cons]
    rw [count_accumulateSeq_passTrace _ N _ _ _ h hN x hx, Nat.succ_mul]
    omega

/-! ## Source creation and inversions (producer role) -/

theorem producer_thread_zero (sched : Nat → List Nat) (N T E D : Nat) (h : Handles)
    (hN : 1 ≤ N) (ev : Ev) (hev : ev ∈ passTrace sched N T E D h)
    (hp : (ev.isProducerCall || ev == Ev.omp_barrier 0) = true) : ev.thread = 0 := by
  rcases (mem_passTrace sched N T E D hN h ev).1 hev with ⟨hlt, p, _, hmem⟩
  generalize ev.thread = i at hmem hlt ⊢
  simp only [iteration, produce, exchangeEv, consume, List.mem_append, List.mem_singleton]
    at hmem
  rcases hmem with (((hmem | rfl) | hmem) | rfl) | hmem
  · split at hmem
    next hc =>
      simp at hc
      omega
    next => simp at hmem
  · simpa [Ev.isProducerCall] using hp
  · split at hmem
    · simp at hmem; subst hmem; simp [Ev.isProducerCall] at hp
    · simp at hmem
  · simpa [Ev.isProducerCall] using hp
  · split at hmem
    · simp at hmem; subst hmem; simp [Ev.isProducerCall] at hp
    · simp at hmem

theorem filter_producer_iteration (N D : Nat) (hN : 1 ≤ N) (h : Handles) (x : Nat × Nat × Nat) :
    (iteration N D 0 h x).filter (fun ev => ev.isProducerCall || ev == Ev.omp_barrier 0) =
      Ev.create_source 0 x.2.1 x.2.2 ::
        (List.range D).map
          (fun d => Ev.tmLQCD_invert 0 x.2.1 x.2.2 (handlesAt h x.1).propagators_t0 d d)
        ++ [Ev.omp_barrier 0, Ev.omp_barrier 0] := by
  have hmap : ∀ l : List Nat,
      (l.map (fun d => Ev.tmLQCD_invert 0 x.2.1 x.2.2 (handlesAt h x.1).propagators_t0 d d)).filter
        (fun ev => ev.isProducerCall || ev == Ev.omp_barrier 0) =
      l.map (fun d => Ev.tmLQCD_invert 0 x.2.1 x.2.2 (handlesAt h x.1).propagators_t0 d d) := by
    intro l
    rw [List.filter_eq_self]
    intro ev hev
    rcases List.mem_map.1 hev with ⟨d, _, rfl⟩
    rfl
  by_cases h1 : N = 1
  · subst h1
    simp [iteration, produce, exchangeEv, consume, List.filter_append, List.filter_cons,
      Ev.isProducerCall, hmap]
  · simp [iteration, produce, exchangeEv, consume, List.filter_append, List.filter_cons,
      Ev.isProducerCall, hmap, h1]

/-- C7: in every schedule of the parallel region, for every team size
`N ≥ 1`, source creation and inversion are only ever called by thread 0, and
the producer calls together with the barrier arrivals of thread 0 are, pair by
pair in loop order: one `create_source(t, e, sources)`, then the `D` inversions
`d = 0 .. D-1`, each reading `sources[d]` and writing index `d` of the
generation `propagators_t0` currently designates, then the two barriers of
that iteration. -/
theorem create_source_once_before_solves (sched : Nat → List Nat) (N T E D : Nat)
    (h : Handles) (hN : 1 ≤ N) :
    (∀ ev ∈ passTrace sched N T E D h, ev.isProducerCall = true → ev.thread = 0) ∧
    (passTrace sched N T E D h).filter (fun ev => ev.isProducerCall || ev == Ev.omp_barrier 0) =
      (dilutionPairs T E).flatMap (fun p =>
        Ev.create_source 0 p.1 p.2 ::
          (List.range D).map
            (fun d => Ev.tmLQCD_invert 0 p.1 p.2
              (handlesAt h (p.1 * E + p.2)).propagators_t0 d d)
          ++ [Ev.omp_barrier 0, Ev.omp_barrier 0]) := by
  constructor
  · intro ev hev hp
    exact producer_thread_zero sched N T E D h hN ev hev (by simp [hp])
  · rw [filter_eq_filter_thread _ _ 0 (producer_thread_zero sched N T E D h hN),
      passTrace_thread sched N T E D 0 hN (by omega) h, List.filter_flatMap]
    congr 1
    funext p
    exact filter_producer_iteration N D hN h (p.1 * E + p.2, p)

/-- Witness for C7 at `T = 2`, `E = 1`, `D = 2` with a team of two threads. -/
theorem create_source_once_before_solves_witness :
    1 ≤ 2 ∧
    (passTrace (fun _ => [1, 0]) 2 2 1 2 initialHandles).filter
        (fun ev => ev.isProducerCall || ev == Ev.omp_barrier 0) =
      [Ev.create_source 0 0 0, Ev.tmLQCD_invert 0 0 0 1 0 0, Ev.tmLQCD_invert 0 0 0 1 1 1,
        Ev.omp_barrier 0, Ev.omp_barrier 0,
        Ev.create_source 0 1 0, Ev.tmLQCD_invert 0 1 0 2 0 0, Ev.tmLQCD_invert 0 1 0 2 1 1,
        Ev.omp_barrier 0, Ev.omp_barrier 0] :=
  ⟨by decide,
    ((create_source_once_before_solves (fun _ => [1, 0]) 2 2 1 2 initialHandles
      (by decide)).2).trans (by decide)⟩

/-- C1, the claim as stated fails for a team of three threads: with
`T = E = D = 1` both consumer threads 1 and 2 call
`add_to_perambulator(0, 0, .)`, so the triple `(0, 0, 0)` is accumulated
twice. -/
theorem accumulate_exactly_once_counterexample :
    accumulateSeq 1 (passTrace (fun _ => []) 3 1 1 1 initialHandles) = [(0, 0, 0), (0, 0, 0)] ∧
    (accumulateSeq 1 (passTrace (fun _ => []) 3 1 1 1 initialHandles)).count (0, 0, 0) = 2 ∧
    dilutionTriples 1 1 1 = [(0, 0, 0)] := by
  decide

/-- C1 (amended): in every schedule of the parallel region, for every team
size `N ≥ 1`, every consumer thread (thread 0 when `N = 1`, threads
`1 .. N-1` otherwise) accumulates every triple `(t, e, d)` of the dilution
space exactly once, in nested order, and no other thread accumulates
anything; hence for `N ≤ 2` the whole pass accumulates every triple exactly
once in nested order, and in general every triple is accumulated once per
consumer thread. -/
theorem accumulate_once_per_consumer (sched : Nat → List Nat) (N T E D : Nat) (h : Handles)
    (hN : 1 ≤ N) :
    (∀ c, c < N → (N = 1 ∨ 1 ≤ c) →
      accumulateSeq D ((passTrace sched N T E D h).filter (fun ev => ev.thread == c)) =
        dilutionTriples T E D) ∧
    (∀ c, ¬ (c < N ∧ (N = 1 ∨ 1 ≤ c)) →
      accumulateSeq D ((passTrace sched N T E D h).filter (fun ev => ev.thread == c)) = []) ∧
    (N ≤ 2 → accumulateSeq D (passTrace sched N T E D h) = dilutionTriples T E D) ∧
    (∀ x ∈ dilutionTriples T E D,
      (accumulateSeq D (passTrace sched N T E D h)).count x = consumers N) := by
  refine ⟨?_, ?_, ?_, ?_⟩
  · intro c hc hcc
    rw [accumulateSeq_thread sched N T E D c hN hc h]
    simp [hcc]
  · intro c hc
    by_cases hlt : c < N
    · rw [accumulateSeq_thread sched N T E D c hN hlt h]
      have : ¬ (N = 1 ∨ 1 ≤ c) := fun hcc => hc ⟨hlt, hcc⟩
      simp [this]
    · rw [accumulateSeq_filter_none sched N T E D c hlt h]
      rfl
  · intro hN2
    have hthread : ∀ ev ∈ passTrace sched N T E D h, ev.isAccumulate = true →
        ev.thread = N - 1 := by
      intro ev hev hp
      have := accumulate_thread sched N T E D h hN ev hev hp
      omega
    rw [← accumulateSeq_filter_isAccumulate,
      filter_eq_filter_thread _ _ (N - 1) hthread, accumulateSeq_filter_isAccumulate,
      accumulateSeq_thread sched N T E D (N - 1) hN (by omega) h]
    have : N = 1 ∨ 1 ≤ N - 1 := by omega
    simp [this]
  · intro x hx
    exact count_accumulateSeq_passTrace sched N T E D h hN x hx

/-- Witness for C1 (amended): `T = 2`, `E = 1`, `D = 2` and a team of two
threads give exactly `[(0,0,0), (0,0,1), (1,0,0), (1,0,1)]`. -/
theorem accumulate_once_per_consumer_witness :
    1 ≤ 2 ∧
    accumulateSeq 2 (passTrace (fun _ => [1, 0, 1]) 2 2 1 2 initialHandles) =
      [(0, 0, 0), (0, 0, 1), (1, 0, 0), (1, 0, 1)] :=
  ⟨by decide,
    ((accumulate_once_per_consumer (fun _ => [1, 0, 1]) 2 2 1 2 initialHandles
      (by decide)).2.2.1 (by decide)).trans (by decide)⟩

/-! ## The two generations never alias -/

theorem props_of_carried {N i : Nat} {prev : Option (Nat × Nat)} {h : Handles} {ev : Ev}
    (hev : ev ∈ carried N i prev h) :
    ev.isExchange = false ∧ ev.writes = none ∧ ev.reads = some h.propagators_t1 := by
  unfold carried at hev
  split at hev
  · simp at hev
  · unfold consume at hev
    split at hev
    · simp at hev; subst hev; simp [Ev.isExchange, Ev.writes, Ev.reads]
    · simp at hev

theorem props_of_produce {N i t e D : Nat} {h : Handles} {ev : Ev}
    (hev : ev ∈ produce N i t e D h) :
    ev.isExchange = false ∧ ev.reads = none ∧
      (ev.writes = none ∨ ev.writes = some h.propagators_t0) := by
  unfold produce at hev
  split at hev
  · simp at hev
    rcases hev with rfl | ⟨d, _, rfl⟩ <;> simp [Ev.isExchange, Ev.writes, Ev.reads]
  · simp at hev

theorem props_of_exchangeEv {N i : Nat} {ev : Ev} (hev : ev ∈ exchangeEv N i) :
    ev.writes = none ∧ ev.reads = none := by
  unfold exchangeEv at hev
  split at hev
  · simp at hev; subst hev; simp [Ev.writes, Ev.reads]
  · simp at hev

theorem phases_never_alias (N D : Nat) (hN : 1 ≤ N) (its : List (Nat × Nat)) :
    ∀ (h : Handles) (prev : Option (Nat × Nat)),
      h.propagators_t0 ≠ h.propagators_t1 →
      ∀ ph ∈ (passPhases N D h prev its).1,
        (∀ a ∈ ph.flatten, ∀ b ∈ ph.flatten, ∀ g, a.writes = some g → b.reads ≠ some g) ∧
        (∀ a ∈ ph.flatten, a.isExchange = true →
          ∀ b ∈ ph.flatten, b.writes = none ∧ b.reads = none) := by
  induction its with
  | nil =>
    intro h prev _ ph hph
    simp only [passPhases, List.mem_singleton] at hph
    subst hph
    have key : ∀ a ∈ ((List.range N).map (fun thread_id => carried N thread_id prev h)).flatten,
        a.isExchange = false ∧ a.writes = none := by
      intro a ha
      simp only [List.mem_flatten, List.mem_map] at ha
      obtain ⟨l, ⟨i, _, rfl⟩, hal⟩ := ha
      exact ⟨(props_of_carried hal).1, (props_of_carried hal).2.1⟩
    constructor
    · intro a ha b _ g hw
      rw [(key a ha).2] at hw
      simp at hw
    · intro a ha hx
      rw [(key a ha).1] at hx
      simp at hx
  | cons x rest ih =>
    intro h prev hne ph hph
    obtain ⟨t, e⟩ := x
    simp only [passPhases, List.mem_cons] at hph
    rcases hph with rfl | rfl | hph
    · have key : ∀ a ∈ ((List.range N).map (fun thread_id =>
          carried N thread_id prev h ++ produce N thread_id t e D h
            ++ [Ev.omp_barrier thread_id])).flatten,
          a.isExchange = false ∧ (a.writes = none ∨ a.writes = some h.propagators_t0) ∧
            (a.reads = none ∨ a.reads = some h.propagators_t1) := by
        intro a ha
        simp only [List.mem_flatten, List.mem_map] at ha
        obtain ⟨l, ⟨i, _, rfl⟩, hal⟩ := ha
        simp only [List.mem_append, List.mem_singleton] at hal
        rcases hal with (hal | hal) | rfl
        · have := props_of_carried hal
          exact ⟨this.1, Or.inl this.2.1, Or.inr this.2.2⟩
        · have := props_of_produce hal
          exact ⟨this.1, this.2.2, Or.inl this.2.1⟩
        · simp [Ev.isExchange, Ev.writes, Ev.reads]
      constructor
      · intro a ha b hb g hw hr
        rcases (key a ha).2.1 with h1 | h1
        · rw [h1] at hw; simp at hw
        · rcases (key b hb).2.2 with h2 | h2
          · rw [h2] at hr; simp at hr
          · rw [h1] at hw
            rw [h2] at hr
            simp at hw hr
            exact hne (hw.trans hr.symm)
      · intro a ha hx
        rw [(key a ha).1] at hx
        simp at hx
    · have key : ∀ a ∈ ((List.range N).map (fun thread_id =>
          exchangeEv N thread_id ++ [Ev.omp_barrier thread_id])).flatten,
          a.writes = none ∧ a.reads = none := by
        intro a ha
        simp only [List.mem_flatten, List.mem_map] at ha
        obtain ⟨l, ⟨i, _, rfl⟩, hal⟩ := ha
        simp only [List.mem_append, List.mem_singleton] at hal
        rcases hal with hal | rfl
        · exact props_of_exchangeEv hal
        · simp [Ev.writes, Ev.reads]
      constructor
      · intro a ha b _ g hw
        rw [(key a ha).1] at hw
        simp at hw
      · intro a _ _ b hb
        exact key b hb
    · refine ih (exchangeAll N h) (some (t, e)) ?_ ph hph
      rw [exchangeAll_eq N hN]
      exact fun e => hne e.symm


theorem exchange_thread_zero (sched : Nat → List Nat) (N T E D : Nat) (h : Handles)
    (hN : 1 ≤ N) (ev : Ev) (hev : ev ∈ passTrace sched N T E D h)
    (hp : (ev.isExchange || ev == Ev.omp_barrier 0) = true) : ev.thread = 0 := by
  rcases (mem_passTrace sched N T E D hN h ev).1 hev with ⟨hlt, p, _, hmem⟩
  generalize ev.thread = i at hmem hlt ⊢
  simp only [iteration, produce, exchangeEv, consume, List.mem_append, List.mem_singleton]
    at hmem
  rcases hmem with (((hmem | rfl) | hmem) | rfl) | hmem
  · split at hmem
    · simp at hmem
      rcases hmem with rfl | ⟨d, _, rfl⟩ <;> simp [Ev.isExchange] at hp
    · simp at hmem
  · simpa [Ev.isExchange] using hp
  · split at hmem
    next hc =>
      simp at hc
      omega
    next => simp at hmem
  · simpa [Ev.isExchange] using hp
  · split at hmem
    · simp at hmem; subst hmem; simp [Ev.isExchange] at hp
    · simp at hmem

theorem filter_exchange_iteration (N D : Nat) (h : Handles) (x : Nat × Nat × Nat) :
    (iteration N D 0 h x).filter (fun ev => ev.isExchange || ev == Ev.omp_barrier 0) =
      [Ev.omp_barrier 0, Ev.exchange 0, Ev.omp_barrier 0] := by
  have hmap : ∀ l : List Nat,
      (l.map (fun d => Ev.tmLQCD_invert 0 x.2.1 x.2.2 (handlesAt h x.1).propagators_t0 d d)).filter
        (fun ev => ev.isExchange || ev == Ev.omp_barrier 0) = [] := by
    intro l
    rw [List.filter_eq_nil_iff]
    intro ev hev
    rcases List.mem_map.1 hev with ⟨d, _, rfl⟩
    simp [Ev.isExchange]
  by_cases h1 : N = 1
  · subst h1
    simp [iteration, produce, exchangeEv, consume, List.filter_append, List.filter_cons,
      Ev.isExchange, hmap]
  · simp [iteration, produce, exchangeEv, consume, List.filter_append, List.filter_cons,
      Ev.isExchange, hmap, h1]

/-- In every schedule the handles are exchanged by thread 0 only, once per
iteration, between its arrivals at the two barriers of the iteration. -/
theorem exchange_between_barriers (sched : Nat → List Nat) (N T E D : Nat) (h : Handles)
    (hN : 1 ≤ N) :
    (passTrace sched N T E D h).filter (fun ev => ev.isExchange || ev == Ev.omp_barrier 0) =
      (dilutionPairs T E).flatMap
        (fun _ => [Ev.omp_barrier 0, Ev.exchange 0, Ev.omp_barrier 0]) := by
  rw [filter_eq_filter_thread _ _ 0 (exchange_thread_zero sched N T E D h hN),
    passTrace_thread sched N T E D 0 hN (by omega) h, List.filter_flatMap]
  congr 1
  funext p
  exact filter_exchange_iteration N D h (p.1 * E + p.2, p)

/-- C3: with a team of `N ≥ 1` threads and the two generations initially
distinct instances, in every barrier-delimited phase of the parallel region
the instance a solver call writes differs from the instance an accumulation
call reads, and a phase in which the handles are exchanged contains neither a
solver write nor an accumulator read; in every schedule the exchange is made
by thread 0, once per iteration, between its arrivals at the two barriers; in
particular, in every schedule, the instance accumulated for iteration `k`
differs from the instance the solver writes for iteration `k + 1`. -/
theorem solver_write_never_aliases_accumulator_read (N T E D : Nat) (h : Handles)
    (hN : 1 ≤ N) (hne : h.propagators_t0 ≠ h.propagators_t1) :
    (∀ ph ∈ (passPhases N D h none (dilutionPairs T E)).1,
      (∀ a ∈ ph.flatten, ∀ b ∈ ph.flatten, ∀ g, a.writes = some g → b.reads ≠ some g) ∧
      (∀ a ∈ ph.flatten, a.isExchange = true →
        ∀ b ∈ ph.flatten, b.writes = none ∧ b.reads = none)) ∧
    (∀ sched : Nat → List Nat,
      (passTrace sched N T E D h).filter (fun ev => ev.isExchange || ev == Ev.omp_barrier 0) =
        (dilutionPairs T E).flatMap
          (fun _ => [Ev.omp_barrier 0, Ev.exchange 0, Ev.omp_barrier 0])) ∧
    (∀ (sched : Nat → List Nat) (c t e g i t' e' g' d s : Nat),
      Ev.add_to_perambulator c t e g ∈ passTrace sched N T E D h →
      Ev.tmLQCD_invert i t' e' g' d s ∈ passTrace sched N T E D h →
      t' * E + e' = t * E + e + 1 → g ≠ g') := by
  refine ⟨phases_never_alias N D hN (dilutionPairs T E) h none hne,
    fun sched => exchange_between_barriers sched N T E D h hN, ?_⟩
  intro sched c t e g i t' e' g' d s hadd hinv hk
  rw [mem_add_to_perambulator sched N T E D hN] at hadd
  rw [mem_tmLQCD_invert sched N T E D hN] at hinv
  obtain ⟨_, _, _, _, rfl⟩ := hadd
  obtain ⟨_, _, _, _, _, rfl⟩ := hinv
  rw [hk, handlesAt_succ]
  exact handlesAt_ne h hne _

/-- Witness for C3: two threads, `T = 2`, `E = 1`, `D = 2`; the accumulation of
iteration 0 reads instance 1 while the solver of iteration 1 writes instance 2. -/
theorem solver_write_never_aliases_accumulator_read_witness :
    (1 ≤ 2 ∧ initialHandles.propagators_t0 ≠ initialHandles.propagators_t1) ∧
    (Ev.add_to_perambulator 1 0 0 1 ∈ passTrace (fun _ => [0, 1]) 2 2 1 2 initialHandles ∧
      Ev.tmLQCD_invert 0 1 0 2 0 0 ∈ passTrace (fun _ => [0, 1]) 2 2 1 2 initialHandles ∧
      (1 : Nat) ≠ 2) :=
  ⟨⟨by decide, by decide⟩, by decide, by decide,
    (solver_write_never_aliases_accumulator_read 2 2 1 2 initialHandles (by decide)
      (by decide)).2.2 (fun _ => [0, 1]) 1 0 0 1 0 1 0 2 0 0 (by decide) (by decide)
      (by decide)⟩

/-! ## Buffer lifecycle of the loop over random vectors -/

theorem mem_of_before {a b : Ev} {l : List Ev} (h : Before a b l) : a ∈ l ∧ b ∈ l := by
  obtain ⟨l1, l2, rfl, ha, hb⟩ := h
  exact ⟨by simp [ha], by simp [hb]⟩

/-- In every schedule the inversions of a pair `(t, e)` are issued before the
accumulation calls of that pair, and they fill the instance that is
accumulated. -/
theorem invert_before_add (sched : Nat → List Nat) (N T E D : Nat) (h : Handles) (hN : 1 ≤ N)
    (c t e d : Nat) (hc : c < N) (hcc : N = 1 ∨ 1 ≤ c) (ht : t < T) (he : e < E) (hd : d < D) :
    Before (Ev.tmLQCD_invert 0 t e (handlesAt h (t * E + e)).propagators_t0 d d)
      (Ev.add_to_perambulator c t e (handlesAt h (t * E + e)).propagators_t0)
      (passTrace sched N T E D h) := by
  obtain ⟨hj, hhj⟩ := produce_phaseBefore_consume N D hN (dilutionPairs T E) h none t e
    ((mem_dilutionPairs T E (t, e)).2 ⟨ht, he⟩)
  have hcons : (N == 1 || decide (c ≥ 1)) = true := by simpa using hcc
  have hph := hhj (Ev.tmLQCD_invert 0 t e hj.propagators_t0 d d)
    (by simp [produce]; exact hd) c hc
    (Ev.add_to_perambulator c t e hj.propagators_t0)
    (by simp [consume, hcons, exchangeAll_eq N hN])
  have hb := before_of_phaseBefore sched _ _ _ 0 (passPhases_tagged N D _ _ _) hph
  have hmem := (mem_of_before hb).2
  change Ev.add_to_perambulator c t e hj.propagators_t0 ∈ passTrace sched N T E D h at hmem
  rw [mem_add_to_perambulator sched N T E D hN] at hmem
  rw [← hmem.2.2.2.2]
  exact hb

/-- C2: in every schedule of the parallel region with a team of `N ≥ 1`
threads, the instance passed to `add_to_perambulator(t, e, .)` is the instance
every inversion of the same iteration `(t, e)` wrote, those inversions
(indices `0 .. D-1`) were issued before the accumulation call, and (the two
generations being distinct) it is not the instance written in the previous
iteration; every inversion is followed by an accumulation call of its pair on
the instance it wrote, so nothing solved is left unaccumulated when the loops
are left; and in a run with exit code 0, when `write_perambulator_to_disk(rnd)`
is reached every triple, those of the last pair included, has been accumulated
once per consumer thread in each of the samples `0 .. rnd`. -/
theorem accumulated_generation_is_the_one_just_solved (sched : Nat → List Nat)
    (N T E D : Nat) (h : Handles) (hN : 1 ≤ N) :
    (∀ c t e g, Ev.add_to_perambulator c t e g ∈ passTrace sched N T E D h →
      (∀ d, d < D → Before (Ev.tmLQCD_invert 0 t e g d d) (Ev.add_to_perambulator c t e g)
        (passTrace sched N T E D h)) ∧
      (∀ i g' d s, Ev.tmLQCD_invert i t e g' d s ∈ passTrace sched N T E D h → g' = g) ∧
      (h.propagators_t0 ≠ h.propagators_t1 → ∀ i t' e' g' d s,
        Ev.tmLQCD_invert i t' e' g' d s ∈ passTrace sched N T E D h →
        t' * E + e' + 1 = t * E + e → g' ≠ g)) ∧
    (∀ i t e g d s, Ev.tmLQCD_invert i t e g d s ∈ passTrace sched N T E D h →
      ∃ c, Before (Ev.tmLQCD_invert i t e g d s) (Ev.add_to_perambulator c t e g)
        (passTrace sched N T E D h)) ∧
    (∀ (gauge_read : Int) (nb_rnd : Nat) (hack_clean : Bool) (Lt Ls : Int)
        (scheds : Nat → Nat → List Nat) (mach : Machine),
      (main ⟨hack_clean, nb_rnd, (T, E, D), Lt, Ls⟩ gauge_read N scheds mach).2 =
          Outcome.exit 0 →
      ∀ rnd, rnd < nb_rnd → ∀ x ∈ dilutionTriples T E D,
        (accumulateSeq D (callsBefore (Ev.write_perambulator_to_disk rnd)
          (main ⟨hack_clean, nb_rnd, (T, E, D), Lt, Ls⟩ gauge_read N scheds mach).1)).count x =
            (rnd + 1) * consumers N) := by
  refine ⟨?_, ?_, ?_⟩
  · intro c t e g hadd
    rw [mem_add_to_perambulator sched N T E D hN] at hadd
    obtain ⟨hc, hcc, ht, he, rfl⟩ := hadd
    refine ⟨?_, ?_, ?_⟩
    · intro d hd
      exact invert_before_add sched N T E D h hN c t e d hc hcc ht he hd
    · intro i g' d s hinv
      rw [mem_tmLQCD_invert sched N T E D hN] at hinv
      exact hinv.2.2.2.2.2
    · intro hne i t' e' g' d s hinv hk
      rw [mem_tmLQCD_invert sched N T E D hN] at hinv
      obtain ⟨_, _, _, _, _, rfl⟩ := hinv
      rw [← hk, handlesAt_succ]
      exact handlesAt_ne h hne _
  · intro i t e g d s hinv
    rw [mem_tmLQCD_invert sched N T E D hN] at hinv
    obtain ⟨rfl, ht, he, hd, rfl, rfl⟩ := hinv
    exact ⟨N - 1, invert_before_add sched N T E D h hN (N - 1) t e s (by omega) (by omega)
      ht he hd⟩
  · intro gauge_read nb_rnd hack_clean Lt Ls scheds mach hv rnd hr x hx
    obtain ⟨h', hb⟩ := main_callsBefore_write _ gauge_read N scheds mach hv rnd hr
    rw [hb, accumulateSeq_append, accumulateSeq_startCalls, accumulateSeq_append,
      accumulateSeq_cons, accumulateSeq_append, accumulateSeq_cons, accumulateSeq_hackCalls]
    simp only [accumulations, List.nil_append, List.append_nil, List.count_append]
    rw [count_accumulateSeq_rndLoop ⟨hack_clean, nb_rnd, (T, E, D), Lt, Ls⟩ N hN scheds x hx,
      count_accumulateSeq_passTrace _ N _ _ _ h' hN x hx]
    simp [Nat.succ_mul]

/-- Witness for C2: two threads, `T = 2`, `E = 1`, `D = 2`; the second
inversion of the last pair is followed by the accumulation of that pair. -/
theorem accumulated_generation_is_the_one_just_solved_witness :
    1 ≤ 2 ∧
    ∃ c, Before (Ev.tmLQCD_invert 0 1 0 2 1 1) (Ev.add_to_perambulator c 1 0 2)
      (passTrace (fun _ => [1, 0]) 2 2 1 2 initialHandles) :=
  ⟨by decide,
    (accumulated_generation_is_the_one_just_solved (fun _ => [1, 0]) 2 2 1 2 initialHandles
      (by decide)).2.1 0 1 0 2 1 1 (by decide)⟩

/-! ## Start-up checks and exit code -/

/-- C5, the claim as stated fails: with degraded mode on and two samples the
run is rejected with exit code 123, but the Solver has been initialised at
line 32 before the check and is finalised at line 53 during the rejection. -/
theorem rejection_zero_collaborator_calls_counterexample :
    main ⟨true, 2, (1, 1, 1), 4, 4⟩ 0 1 (fun _ _ => []) roomyMachine =
      ([Ev.tmLQCD_invert_init, Ev.MPI_Barrier, Ev.parse_input_file, Ev.tmLQCD_finalise,
        Ev.MPI_Finalize], Outcome.exit 123) ∧
    (main ⟨true, 2, (1, 1, 1), 4, 4⟩ 0 1 (fun _ _ => []) roomyMachine).1.filter Ev.isCollaboratorCall =
      [Ev.tmLQCD_invert_init, Ev.tmLQCD_finalise] := by
  decide

/-- C5 (amended): with degraded mode on and more than one sample the run is
rejected with exit code 123 and the only Solver, SourceGenerator or
Accumulator operations of the run are the Solver initialisation, which
precedes the check, and the Solver finalisation of the rejection; no
inversion, source creation, accumulation, persist, reset, degraded teardown or
shutdown occurs, and the gauge field is not read. -/
theorem rejection_only_solver_init_and_finalise (param : input_parameter) (gauge_read : Int)
    (N : Nat) (sched : Nat → Nat → List Nat) (mach : Machine) (hh : param.hack_clean = true)
    (hr : 1 < param.nb_rnd) :
    (main param gauge_read N sched mach).2 = Outcome.exit 123 ∧
    (main param gauge_read N sched mach).1.filter Ev.isCollaboratorCall =
      [Ev.tmLQCD_invert_init, Ev.tmLQCD_finalise] ∧
    Ev.tmLQCD_read_gauge ∉ (main param gauge_read N sched mach).1 ∧
    (∀ ev ∈ (main param gauge_read N sched mach).1,
      ev.isPassCall = false ∧ ev.isPersistOrReset = false ∧ ev ≠ Ev.hack_clean ∧
        ev ≠ Ev.clean) := by
  rw [main_rejected param gauge_read N sched mach ⟨hh, hr⟩]
  exact ⟨rfl, by decide, by decide, by decide⟩

/-- Witness for C5 (amended): degraded mode on, two samples. -/
theorem rejection_only_solver_init_and_finalise_witness :
    ((⟨true, 2, (1, 1, 1), 4, 4⟩ : input_parameter).hack_clean = true ∧
      1 < (⟨true, 2, (1, 1, 1), 4, 4⟩ : input_parameter).nb_rnd) ∧
    (main ⟨true, 2, (1, 1, 1), 4, 4⟩ 0 1 (fun _ _ => []) roomyMachine).2 = Outcome.exit 123 :=
  ⟨⟨rfl, by decide⟩,
    (rejection_only_solver_init_and_finalise ⟨true, 2, (1, 1, 1), 4, 4⟩ 0 1 (fun _ _ => []) roomyMachine rfl
      (by decide)).1⟩

/-- C6, the claim as stated fails: with degraded mode off, one sample and a
successful gauge read the exit code is not 0 when an array `new` throws; for
the lattice `Lt = 256`, `Ls = 128` on one process the `int length` of line 83
is negative, the first `new` of line 92 throws and the run is aborted. -/
theorem exit_code_total_counterexample :
    length ⟨false, 1, (1, 1, 1), 256, 128⟩ roomyMachine = -2147483648 ∧
    (main ⟨false, 1, (1, 1, 1), 256, 128⟩ 0 1 (fun _ _ => []) roomyMachine).2 =
      Outcome.abort ∧
    (main ⟨false, 1, (1, 1, 1), 256, 128⟩ 0 1 (fun _ _ => [])
      { numprocs := 1, extents_64bit := true, arrays_ok := true,
        buffers_ok := fun _ => true }).2 = Outcome.abort ∧
    (main ⟨false, 1, (1, 1, 1), 4, 4⟩ 0 1 (fun _ _ => [])
      { numprocs := 1, extents_64bit := false, arrays_ok := true,
        buffers_ok := fun _ => false }).2 = Outcome.abort := by
  decide

/-- C6 (amended): the run ends with exit code 123 iff `hack_clean` is set and
`nb_rnd > 1`; otherwise with exit code 222 iff the gauge read returned a
negative status; otherwise it either returns 0 or is aborted by an array
`new` that throws, and it returns 0 iff the `new` of lines 79-81 succeed and
no allocation loop of a sample fails.  A run with exit code 222 contains no
inversion, no source creation and no accumulation, and in every run an
inversion is only issued after `tmLQCD_read_gauge`. -/
theorem outcome_by_startup_checks_and_allocation (param : input_parameter)
    (gauge_read : Int) (N : Nat) (sched : Nat → Nat → List Nat) (mach : Machine) :
    ((main param gauge_read N sched mach).2 = Outcome.exit 123 ↔
      (param.hack_clean = true ∧ 1 < param.nb_rnd)) ∧
    (¬ (param.hack_clean = true ∧ 1 < param.nb_rnd) →
      ((main param gauge_read N sched mach).2 = Outcome.exit 222 ↔ gauge_read < 0)) ∧
    (¬ (param.hack_clean = true ∧ 1 < param.nb_rnd) → ¬ gauge_read < 0 →
      ((main param gauge_read N sched mach).2 = Outcome.exit 0 ∨
        (main param gauge_read N sched mach).2 = Outcome.abort) ∧
      ((main param gauge_read N sched mach).2 = Outcome.exit 0 ↔
        (mach.arrays_ok = true ∧
          ∀ rnd, rnd < param.nb_rnd → allocationFails param mach rnd = false))) ∧
    ((main param gauge_read N sched mach).2 = Outcome.exit 222 →
      Ev.tmLQCD_read_gauge ∈ (main param gauge_read N sched mach).1 ∧
      ∀ ev ∈ (main param gauge_read N sched mach).1,
        ev.isProducerCall = false ∧ ev.isAccumulate = false) ∧
    (∀ ev ∈ (main param gauge_read N sched mach).1, ev.isProducerCall = true →
      Ev.tmLQCD_read_gauge ∈ callsBefore ev (main param gauge_read N sched mach).1) := by
  by_cases hc : param.hack_clean = true ∧ 1 < param.nb_rnd
  · have hm := main_rejected param gauge_read N sched mach hc
    rw [hm]
    refine ⟨by simp [hc], fun h => absurd hc h, fun h => absurd hc h, by simp, ?_⟩
    intro ev hev hp
    simp only [List.mem_cons, List.not_mem_nil, or_false] at hev
    rcases hev with rfl | rfl | rfl | rfl | rfl <;> simp [Ev.isProducerCall] at hp
  · by_cases hg : gauge_read < 0
    · have hm := main_gauge_failed param gauge_read N sched mach hc hg
      rw [hm]
      refine ⟨by simp [hc], fun _ => by simp [hg], fun _ h => absurd hg h, ?_, ?_⟩
      · intro _
        refine ⟨by simp, ?_⟩
        intro ev hev
        simp only [List.mem_cons, List.not_mem_nil, or_false] at hev
        rcases hev with rfl | rfl | rfl | rfl | rfl | rfl | rfl | rfl <;> exact ⟨rfl, rfl⟩
      · intro ev hev hp
        simp only [List.mem_cons, List.not_mem_nil, or_false] at hev
        rcases hev with rfl | rfl | rfl | rfl | rfl | rfl | rfl | rfl <;>
          simp [Ev.isProducerCall] at hp
    · obtain ⟨⟨rest, htr⟩, hor, hiff, _⟩ := main_started param gauge_read N sched mach hc hg
      have hne : ∀ c, c ≠ 0 → (main param gauge_read N sched mach).2 ≠ Outcome.exit c := by
        intro c hc0 he
        rcases hor with h | h
        · rw [h] at he
          exact hc0 (Outcome.exit.inj he).symm
        · rw [h] at he
          exact Outcome.noConfusion he
      refine ⟨?_, fun _ => ?_, fun _ _ => ⟨hor, hiff⟩, ?_, ?_⟩
      · constructor
        · intro h; exact absurd h (hne 123 (by decide))
        · intro h; exact absurd h hc
      · constructor
        · intro h; exact absurd h (hne 222 (by decide))
        · intro h; exact absurd h hg
      · intro h; exact absurd h (hne 222 (by decide))
      · intro ev _ hp
        have hnot : ev ∉ startCalls := by
          intro hm
          simp only [startCalls, List.mem_cons, List.not_mem_nil, or_false] at hm
          rcases hm with rfl | rfl | rfl | rfl | rfl | rfl | rfl | rfl <;>
            simp [Ev.isProducerCall] at hp
        rw [htr, callsBefore_append_of_not_mem _ _ _ hnot]
        simp [startCalls]

/-! ## Persisting, resetting and the low-memory hack -/

theorem init_not_mem_rndLoop (param : input_parameter) (N : Nat)
    (sched : Nat → Nat → List Nat) (ids : List Nat) (h : Handles) :
    Ev.tmLQCD_invert_init ∉ rndLoopDone param N sched ids h := by
  intro hev
  rcases mem_rndLoop param N sched _ ids h hev with hp | ⟨r, _, hcase⟩
  · simp [Ev.isPassCall] at hp
  · rcases hcase with hc | hc | hc
    · simp at hc
    · simp at hc
    · rcases mem_bodyTail param r _ hc with hc | hc | hc | hc | hc <;> simp at hc

/-- C9, the claim as stated fails: in degraded mode the calls between the
release loop and the persisting are the Solver finalisation, a barrier, the
Accumulator teardown and a barrier; the Solver is not initialised again (its
only initialisation is the one at line 32). -/
theorem degraded_teardown_reinitialises_solver_counterexample :
    callsBetween (Ev.release 0) (Ev.write_perambulator_to_disk 0)
        (main ⟨true, 1, (1, 1, 1), 4, 4⟩ 0 1 (fun _ _ => []) roomyMachine).1 =
      [Ev.tmLQCD_finalise, Ev.MPI_Barrier, Ev.hack_clean, Ev.MPI_Barrier] ∧
    Ev.tmLQCD_invert_init ∉ callsBetween (Ev.release 0) (Ev.write_perambulator_to_disk 0)
        (main ⟨true, 1, (1, 1, 1), 4, 4⟩ 0 1 (fun _ _ => []) roomyMachine).1 ∧
    Ev.tmLQCD_invert_init ∉ callsAfter (Ev.tmLQCD_finalise)
        (main ⟨true, 1, (1, 1, 1), 4, 4⟩ 0 1 (fun _ _ => []) roomyMachine).1 := by
  decide

/-- C9 (amended): in every run that passes the start-up checks (exit code 0),
for every sample `rnd` the calls between the release loop and
`write_perambulator_to_disk(rnd)` are, in degraded mode, the Solver
finalisation, a process barrier, the Accumulator teardown `hack_clean` and a
process barrier, in this order, and with degraded mode off a single process
barrier; the Solver is initialised exactly once in the run, at line 32, so it
is never initialised again after the teardown. -/
theorem degraded_teardown_between_release_and_persist (param : input_parameter)
    (gauge_read : Int) (N : Nat) (sched : Nat → Nat → List Nat) (mach : Machine)
    (hv : (main param gauge_read N sched mach).2 = Outcome.exit 0) :
    (∀ rnd, rnd < param.nb_rnd →
      callsBetween (Ev.release rnd) (Ev.write_perambulator_to_disk rnd)
          (main param gauge_read N sched mach).1 =
        if param.hack_clean then
          [Ev.tmLQCD_finalise, Ev.MPI_Barrier, Ev.hack_clean, Ev.MPI_Barrier]
        else [Ev.MPI_Barrier]) ∧
    (main param gauge_read N sched mach).1.count Ev.tmLQCD_invert_init = 1 := by
  constructor
  · intro rnd hr
    rw [main_callsBetween param gauge_read N sched mach hv rnd hr]
    unfold hackCalls
    split <;> simp
  · obtain ⟨_, _, htr⟩ := main_exit_zero param gauge_read N sched mach hv
    rw [htr, List.count_append, List.count_append,
      List.count_eq_zero.2 (init_not_mem_rndLoop param N sched _ _)]
    decide

/-- Witness for C9 (amended): degraded mode on, one sample. -/
theorem degraded_teardown_between_release_and_persist_witness :
    (main ⟨true, 1, (1, 1, 1), 4, 4⟩ 0 1 (fun _ _ => []) roomyMachine).2 = Outcome.exit 0 ∧
    callsBetween (Ev.release 0) (Ev.write_perambulator_to_disk 0)
        (main ⟨true, 1, (1, 1, 1), 4, 4⟩ 0 1 (fun _ _ => []) roomyMachine).1 =
      [Ev.tmLQCD_finalise, Ev.MPI_Barrier, Ev.hack_clean, Ev.MPI_Barrier] :=
  ⟨by decide,
    (degraded_teardown_between_release_and_persist ⟨true, 1, (1, 1, 1), 4, 4⟩ 0 1 (fun _ _ => []) roomyMachine
      (by decide)).1 0 (by decide)⟩

/-! ## The heap of element buffers -/

theorem allocLoop_succ (D : Nat) (h : Handles) (m : Heap) :
    allocLoop (D + 1) h m =
      (((allocLoop D h m).new sourcesInst D).new h.propagators_t1 D).new h.propagators_t0 D := by
  simp [allocLoop, List.range_succ, List.foldl_append]

/-- The state after the allocation loop: `3 * D` fresh buffers have been
created and stored in the three outer arrays. -/
theorem allocLoop_spec (h : Handles) (h01 : h.propagators_t0 ≠ h.propagators_t1)
    (h0 : h.propagators_t0 ≠ sourcesInst) (h1 : h.propagators_t1 ≠ sourcesInst) (m : Heap)
    (D : Nat) :
    (allocLoop D h m).next = m.next + 3 * D ∧
    (allocLoop D h m).live = (List.range' m.next (3 * D)).reverse ++ m.live ∧
    (∀ i, i < D →
      (allocLoop D h m).cell sourcesInst i = m.next + 3 * i ∧
      (allocLoop D h m).cell h.propagators_t1 i = m.next + 3 * i + 1 ∧
      (allocLoop D h m).cell h.propagators_t0 i = m.next + 3 * i + 2) := by
  induction D with
  | zero => simp [allocLoop]
  | succ D ih =>
    obtain ⟨ihn, ihl, ihc⟩ := ih
    rw [allocLoop_succ]
    refine ⟨?_, ?_, ?_⟩
    · simp only [Heap.new, ihn]; omega
    · simp only [Heap.new, ihn, ihl]
      have e : 3 * (D + 1) = 3 + 3 * D := by omega
      rw [e, ← List.range'_append_1]
      simp [List.range', List.reverse_append]
    · intro i hi
      simp only [Heap.new, ihn]
      by_cases hiD : i = D
      · subst hiD
        simp [h01, h0, h1, Ne.symm h01, Ne.symm h0, Ne.symm h1]
      · have hlt : i < D := by omega
        obtain ⟨c0, c1, c2⟩ := ihc i hlt
        simp [hiD, c0, c1, c2]

theorem delete_of_mem (m : Heap) (a : Inst) (i : Nat) (hmem : m.cell a i ∈ m.live) :
    m.delete a i = some { m with live := m.live.erase (m.cell a i) } := by
  simp [Heap.delete, hmem]

/-- The release loop succeeds and leaves no buffer live when the live buffers
are exactly the pointers it destroys, each once. -/
theorem releaseLoop_list (h : Handles) (is : List Nat) : ∀ m : Heap,
    m.live.Perm (is.flatMap (released h m)) → m.live.Nodup →
    ∃ m', is.foldlM (fun m i => do
        let m ← m.delete sourcesInst i
        let m ← m.delete h.propagators_t1 i
        m.delete h.propagators_t0 i) m = some m' ∧ m'.live = [] := by
  induction is with
  | nil =>
    intro m hp _
    exact ⟨m, rfl, by simpa using hp⟩
  | cons i is ih =>
    intro m hp hnd
    rw [List.flatMap_cons] at hp
    set a := m.cell sourcesInst i with ha
    set b := m.cell h.propagators_t1 i with hb
    set c := m.cell h.propagators_t0 i with hc
    have hrel : released h m i = [a, b, c] := rfl
    rw [hrel] at hp
    have hnd' : ([a, b, c] ++ is.flatMap (released h m)).Nodup := hp.nodup_iff.1 hnd
    -- first delete
    have ha_mem : a ∈ m.live := hp.symm.subset (by simp)
    let m1 : Heap := { m with live := m.live.erase a }
    have hp1 : m1.live.Perm ([b, c] ++ is.flatMap (released h m)) := by
      have := hp.erase a
      simpa using this
    have hnd1 : ([b, c] ++ is.flatMap (released h m)).Nodup := by
      have := hnd'
      simp only [List.cons_append, List.nodup_cons] at this ⊢
      exact this.2
    -- second delete
    have hb_mem : b ∈ m1.live := hp1.symm.subset (by simp)
    let m2 : Heap := { m1 with live := m1.live.erase b }
    have hp2 : m2.live.Perm ([c] ++ is.flatMap (released h m)) := by
      have := hp1.erase b
      simpa using this
    have hnd2 : ([c] ++ is.flatMap (released h m)).Nodup := by
      have := hnd1
      simp only [List.cons_append, List.nodup_cons] at this ⊢
      exact this.2
    -- third delete
    have hc_mem : c ∈ m2.live := hp2.symm.subset (by simp)
    let m3 : Heap := { m2 with live := m2.live.erase c }
    have hp3 : m3.live.Perm (is.flatMap (released h m3)) := by
      have := hp2.erase c
      simpa using this
    have hnd3 : m3.live.Nodup := by
      have : (is.flatMap (released h m)).Nodup := by
        have := hnd2
        simp only [List.cons_append, List.nodup_cons] at this
        exact this.2
      exact hp3.nodup_iff.2 this
    obtain ⟨m', hm', hlive⟩ := ih m3 hp3 hnd3
    refine ⟨m', ?_, hlive⟩
    rw [List.foldlM_cons]
    have d1 : m.delete sourcesInst i = some m1 := delete_of_mem m sourcesInst i ha_mem
    have d2 : m1.delete h.propagators_t1 i = some m2 :=
      delete_of_mem m1 h.propagators_t1 i hb_mem
    have d3 : m2.delete h.propagators_t0 i = some m3 :=
      delete_of_mem m2 h.propagators_t0 i hc_mem
    simp only [d1, d2, d3, Option.bind_eq_bind, Option.some_bind]
    exact hm'

theorem exchange_mem (N i : Nat) (h0 h : Handles) (hh : h = h0 ∨ h = swapHandles h0) :
    exchange N i h = h0 ∨ exchange N i h = swapHandles h0 := by
  unfold exchange
  split
  · rcases hh with rfl | rfl
    · right; rfl
    · left; rfl
  · exact hh

theorem exchangeAll_mem (N : Nat) (h0 h : Handles) (hh : h = h0 ∨ h = swapHandles h0) :
    exchangeAll N h = h0 ∨ exchangeAll N h = swapHandles h0 := by
  unfold exchangeAll
  generalize List.range N = l
  induction l generalizing h with
  | nil => exact hh
  | cons i l ih => exact ih (exchange N i h) (exchange_mem N i h0 h hh)

theorem passPhases_handles_mem (N D : Nat) (h0 : Handles) (its : List (Nat × Nat)) :
    ∀ (h : Handles) (prev : Option (Nat × Nat)), (h = h0 ∨ h = swapHandles h0) →
      (passPhases N D h prev its).2 = h0 ∨ (passPhases N D h prev its).2 = swapHandles h0 := by
  induction its with
  | nil => intro h prev hh; exact hh
  | cons x rest ih =>
    intro h prev hh
    obtain ⟨t, e⟩ := x
    exact ih (exchangeAll N h) (some (t, e)) (exchangeAll_mem N h0 h hh)

/-- The parallel region only exchanges the two handles: afterwards they
designate the same two arrays, possibly in exchanged roles. -/
theorem passHandles_mem (N T E D : Nat) (h : Handles) :
    passHandles N T E D h = h ∨ passHandles N T E D h = swapHandles h :=
  passPhases_handles_mem N D h (dilutionPairs T E) h none (Or.inl rfl)

theorem flatMap_triples_range (n D : Nat) :
    (List.range D).flatMap (fun i => [n + 3 * i, n + 3 * i + 1, n + 3 * i + 2]) =
      List.range' n (3 * D) := by
  induction D with
  | zero => simp
  | succ D ih =>
    have e : 3 * (D + 1) = 3 + 3 * D := by omega
    rw [List.range_succ, List.flatMap_append, ih, e, ← List.range'_append_1]
    simp [List.range']

/-- After the allocation loop the pointers the release loop will destroy,
through either assignment of the handles, are exactly the fresh buffers. -/
theorem released_perm (h h' : Handles) (h01 : h.propagators_t0 ≠ h.propagators_t1)
    (h0 : h.propagators_t0 ≠ sourcesInst) (h1 : h.propagators_t1 ≠ sourcesInst)
    (hh : h' = h ∨ h' = swapHandles h) (m : Heap) (D : Nat) :
    ((List.range D).flatMap (released h' (allocLoop D h m))).Perm
      (List.range' m.next (3 * D)) := by
  rw [← flatMap_triples_range]
  apply List.Perm.flatMap_left
  intro i hi
  have hi' : i < D := by simpa using hi
  obtain ⟨c0, c1, c2⟩ := (allocLoop_spec h h01 h0 h1 m D).2.2 i hi'
  rcases hh with rfl | rfl
  · simp only [released, c0, c1, c2]
    exact List.Perm.refl _
  · simp only [released, swapHandles, c0, c1, c2]
    exact List.Perm.cons _ (List.Perm.swap _ _ _)

/-- One sample: from a state between samples the allocation loop creates
exactly `3 * D` fresh buffers, and the release loop after the parallel region
destroys each of them once, leaving a state between samples. -/
theorem sampleHeap_spec (N T E D : Nat) (s : Handles × Heap) (hs : BetweenSamples s) :
    (allocLoop D s.1 s.2).live.Perm (List.range' s.2.next (3 * D)) ∧
    (∃ m, releaseLoop D (passHandles N T E D s.1) (allocLoop D s.1 s.2) = some m ∧
      m.live = []) ∧
    ∃ s', sampleHeap N T E D s = some s' ∧ BetweenSamples s' := by
  obtain ⟨h01, h0, h1, hlive⟩ := hs
  have hspec := allocLoop_spec s.1 h01 h0 h1 s.2 D
  have hperm : (allocLoop D s.1 s.2).live.Perm (List.range' s.2.next (3 * D)) := by
    rw [hspec.2.1, hlive, List.append_nil]
    exact List.reverse_perm _
  have hmem := passHandles_mem N T E D s.1
  have hrel := released_perm s.1 (passHandles N T E D s.1) h01 h0 h1 hmem s.2 D
  have hnd : (allocLoop D s.1 s.2).live.Nodup :=
    hperm.nodup_iff.2 (List.nodup_range' _ _)
  obtain ⟨m, hm, hml⟩ := releaseLoop_list (passHandles N T E D s.1) (List.range D)
    (allocLoop D s.1 s.2) (hperm.trans hrel.symm) hnd
  refine ⟨hperm, ⟨m, hm, hml⟩, (passHandles N T E D s.1, m), ?_, ?_⟩
  · unfold sampleHeap
    simp only [releaseLoop] at hm ⊢
    rw [hm]
    rfl
  · rcases hmem with e | e
    · rw [e]; exact ⟨h01, h0, h1, hml⟩
    · rw [e]; exact ⟨fun x => h01 x.symm, h1, h0, hml⟩

theorem samplesHeap_spec (N T E D : Nat) (R : Nat) : ∀ s : Handles × Heap, BetweenSamples s →
    ∃ s', samplesHeap N T E D R s = some s' ∧ BetweenSamples s' := by
  induction R with
  | zero => intro s hs; exact ⟨s, rfl, hs⟩
  | succ R ih =>
    intro s hs
    obtain ⟨s1, hs1, hb1⟩ := (sampleHeap_spec N T E D s hs).2.2
    obtain ⟨s', hs', hb'⟩ := ih s1 hb1
    exact ⟨s', by simp [samplesHeap, hs1, hs'], hb'⟩

/-- C10: for all extents `T`, `E`, `D`, every team size and every number `R`
of completed samples, starting from the empty heap the `R` samples run
without destroying a buffer that is not live and leave no element buffer
live; the allocation loop of the next sample then makes exactly `3 * D`
fresh buffers live, each once, and the release loop after the parallel
region (whatever the number of handle exchanges) destroys each of them
exactly once and leaves no buffer live. -/
theorem release_frees_exactly_the_allocated_buffers (N T E D R : Nat) :
    ∃ s, samplesHeap N T E D R (initialHandles, emptyHeap) = some s ∧
      s.2.live = [] ∧
      (allocLoop D s.1 s.2).live.Perm (List.range' s.2.next (3 * D)) ∧
      ∃ m, releaseLoop D (passHandles N T E D s.1) (allocLoop D s.1 s.2) = some m ∧
        m.live = [] := by
  have hinit : BetweenSamples (initialHandles, emptyHeap) := by
    refine ⟨by decide, by decide, by decide, rfl⟩
  obtain ⟨s, hs, hb⟩ := samplesHeap_spec N T E D R _ hinit
  have := sampleHeap_spec N T E D s hb
  exact ⟨s, hs, hb.2.2.2, this.1, this.2.1⟩

end PeramGen
